import Mathlib

/-
Verification of the icon-set repository (`@iconify/tools`, `src/icon-set/index.ts`).

The TypeScript classes are shallowly embedded: the entry store
(`Record<string, IconSetIconEntry>`) becomes an association list in
insertion order, JS object assignment becomes in-place replacement or
append, `Set` becomes a duplicate-free list, and the recursive walks that
the source bounds through an integer `iteration` parameter (guarded by
`iteration > maxIteration`) become fuel-indexed recursion with
`fuel = maxIteration + 1 - iteration`.
-/

namespace IconSetVerif

/-- Common icon properties (`CommonIconProps`): the eight optional keys of
`defaultCommonProps` (dimensions, transformations, `hidden`). A field that
is `none` models an absent key. -/
structure IconProps where
  left : Option Int
  top : Option Int
  width : Option Int
  height : Option Int
  rotate : Option Nat
  hFlip : Option Bool
  vFlip : Option Bool
  hidden : Option Bool
deriving DecidableEq, Repr

/-- Props record with every key absent. -/
def noProps : IconProps :=
  { left := none, top := none, width := none, height := none,
    rotate := none, hFlip := none, vFlip := none, hidden := none }

/-- Category record (`IconCategory`): title plus a running count. The
source's records are JS objects compared by reference identity; here each
allocated record carries a unique `id` and identity is `id` equality. The
`count` field of a copy held inside an icon's membership set is never
read — all count reads and writes go through the Category Index — so
value copies with a stale `count` are behaviourally equal to the shared
object. -/
structure IconCategory where
  id : Nat
  title : String
  count : Int
deriving DecidableEq, Repr

/-- Entry of the store (`IconSetIconEntry`): a tagged union of icon, alias
and variation. Character sets are lists of single-character strings;
category membership is the set of category records the icon holds
references to (identity = the `id` field), which may include records that
`listCategory` has since pruned from the Category Index. -/
inductive IconSetIconEntry where
  | icon (body : String) (props : IconProps) (chars : List String) (categories : List IconCategory)
  | aliasEntry (parent : String) (chars : List String)
  | variation (parent : String) (props : IconProps) (chars : List String)
deriving DecidableEq, Repr

/-- The `IconSet` aggregate: namespace id, entry store, category set and
the two theme tables. (The optional `info` block carries no behaviour the
claims touch and is omitted.) `nextCatId` is the allocator for category
record identities: the model of JS object allocation, incremented whenever
`load` or `findCategory` creates a record. -/
structure IconSet where
  pfx : String
  entries : List (String × IconSetIconEntry)
  categories : List IconCategory
  prefixes : List (String × String)
  suffixes : List (String × String)
  nextCatId : Nat
deriving DecidableEq, Repr

/-- Lookup by key in an association list: the JS read `obj[key]`,
returning the first binding. -/
def lookupKey {β : Type} : List (String × β) → String → Option β
  | [], _ => none
  | (k, v) :: rest, key => if k = key then some v else lookupKey rest key

/-- JS object assignment `obj[key] = v`: replace the binding in place if
the key exists, otherwise append it. -/
def setKey {β : Type} : List (String × β) → String → β → List (String × β)
  | [], key, v => [(key, v)]
  | (k, w) :: rest, key, v =>
    if k = key then (key, v) :: rest else (k, w) :: setKey rest key v

/-- Maximum depth for looking for parent icons (`maxIteration`). -/
def maxIteration : Nat := 6

/-- Parent field of an entry, when it has one. -/
def parentOf : IconSetIconEntry → Option String
  | .icon _ _ _ _ => none
  | .aliasEntry p _ => some p
  | .variation p _ _ => some p

/-! ### Variation property merge (`resolve`, variation case)

The source walks the keys present on the variation and, for each one whose
value is truthy (`if (value)`), either copies it onto the resolved parent
(key absent there) or merges it: `rotate` is summed modulo 4, `hFlip` and
`vFlip` negate the parent's flag, and every other key overwrites. -/

/-- Merge for the keys handled by the `default` branch with numeric values
(`left`, `top`, `width`, `height`): a truthy (non-zero) override lands in
the result whether or not the parent had the key. -/
def mergeDim (p o : Option Int) : Option Int :=
  match o with
  | none => p
  | some v => if v = 0 then p else some v

/-- Merge for `rotate`: truthy override sums with the parent's rotation
modulo 4, or is copied verbatim when the parent lacks the key. -/
def mergeRotate (p o : Option Nat) : Option Nat :=
  match o with
  | none => p
  | some v =>
    if v = 0 then p
    else
      match p with
      | none => some v
      | some pv => some ((pv + v) % 4)

/-- Merge for `hFlip` / `vFlip`: a truthy override negates the parent's
flag, or is copied verbatim when the parent lacks the key. -/
def mergeFlip (p o : Option Bool) : Option Bool :=
  match o with
  | none => p
  | some v =>
    if v = false then p
    else
      match p with
      | none => some v
      | some pv => some (!pv)

/-- Merge for `hidden` (handled by the `default` overwrite branch). -/
def mergeHidden (p o : Option Bool) : Option Bool :=
  match o with
  | none => p
  | some v => if v = false then p else some v

/-- Property merge of a variation's overrides onto its resolved parent. -/
def mergeVariation (p o : IconProps) : IconProps :=
  { left := mergeDim p.left o.left
    top := mergeDim p.top o.top
    width := mergeDim p.width o.width
    height := mergeDim p.height o.height
    rotate := mergeRotate p.rotate o.rotate
    hFlip := mergeFlip p.hFlip o.hFlip
    vFlip := mergeFlip p.vFlip o.vFlip
    hidden := mergeHidden p.hidden o.hidden }

/-- Resolved icon (`ResolvedIconifyIcon`): body plus merged properties. -/
structure ResolvedIcon where
  body : String
  props : IconProps
deriving DecidableEq, Repr

/-- The recursive worker of `resolve` (`getIcon`). The source fails when
`entries[name]` is absent or `iteration > maxIteration`; here
`fuel = maxIteration + 1 - iteration`, so iteration `maxIteration + 1`
is the `fuel = 0` failure. -/
def getIcon (entries : List (String × IconSetIconEntry)) : Nat → String → Option ResolvedIcon
  | 0, _ => none
  | fuel + 1, name =>
    match lookupKey entries name with
    | none => none
    | some (.icon body props _ _) => some { body := body, props := props }
    | some (.aliasEntry parent _) => getIcon entries fuel parent
    | some (.variation parent props _) =>
      match getIcon entries fuel parent with
      | none => none
      | some r => some { body := r.body, props := mergeVariation r.props props }

/-- Resolve an icon name to its concrete definition (`IconSet.resolve`
with `full = false`); `none` is the "not found" result. -/
def resolve (s : IconSet) (name : String) : Option ResolvedIcon :=
  getIcon s.entries (maxIteration + 1) name

/-- The parent chain of a name: `follow entries k name` is the name
reached after `k` alias/variation hops, or `none` if a hop leaves the
store or reaches a concrete icon first. Used to state which names
`resolve` reports as "not found". -/
def follow (entries : List (String × IconSetIconEntry)) : Nat → String → Option String
  | 0, name => some name
  | k + 1, name =>
    match lookupKey entries name with
    | some (.aliasEntry parent _) => follow entries k parent
    | some (.variation parent _ _) => follow entries k parent
    | _ => none

/-- Whether an optional store slot holds an alias or a variation. -/
def isRefSlot : Option IconSetIconEntry → Bool
  | some (.aliasEntry _ _) => true
  | some (.variation _ _ _) => true
  | _ => false

/-! ### Mutation API: `setItem` and its typed wrappers -/

/-- Add/update an item (`IconSet.setItem`): alias and variation entries
are rejected when their parent is not currently in the store. -/
def setItem (s : IconSet) (name : String) (item : IconSetIconEntry) : Bool × IconSet :=
  match parentOf item with
  | some p =>
    if (lookupKey s.entries p).isNone then (false, s)
    else (true, { s with entries := setKey s.entries name item })
  | none => (true, { s with entries := setKey s.entries name item })

/-- Add/update an alias without props (`IconSet.setAlias`). -/
def setAlias (s : IconSet) (name parent : String) : Bool × IconSet :=
  setItem s name (.aliasEntry parent [])

/-- Add/update an alias with props (`IconSet.setVariation`). -/
def setVariation (s : IconSet) (name parent : String) (props : IconProps) : Bool × IconSet :=
  setItem s name (.variation parent props [])

/-! ### `remove` and `rename` -/

/-- The `removeDependencies` argument of `IconSet.remove`:
`false`, `true`, or a replacement parent name. -/
inductive RemoveDeps where
  | keep
  | cascade
  | reparent (newParent : String)
deriving DecidableEq, Repr

/-- Rewrite the parent field of an alias/variation (`item.parent = ...`). -/
def setParentField : IconSetIconEntry → String → IconSetIconEntry
  | .aliasEntry _ ch, np => .aliasEntry np ch
  | .variation _ props ch, np => .variation np props ch
  | e, _ => e

/-- Rewrite the parent of the entry stored under `key`. -/
def reparentKey (entries : List (String × IconSetIconEntry)) (key np : String) :
    List (String × IconSetIconEntry) :=
  entries.map fun kv => if kv.1 = key then (kv.1, setParentField kv.2 np) else kv

/-- State threaded through `del`: the (possibly reparented) entry store and
the visited-name set `names`. -/
abbrev DelState := List (String × IconSetIconEntry) × List String

/-- The child scan inside `del`: walk the captured entry list and run
`onChild` on every alias/variation whose parent is `name`, aborting the
whole operation as soon as one child call fails. -/
def delScan (onChild : String → DelState → Option DelState) (name : String) :
    List (String × IconSetIconEntry) → DelState → Option DelState
  | [], st => some st
  | (key, item) :: rest, st =>
    match parentOf item with
    | none => delScan onChild name rest st
    | some p =>
      if p = name then
        match onChild key st with
        | none => none
        | some st1 => delScan onChild name rest st1
      else delScan onChild name rest st

/-- The recursive worker of `IconSet.remove` (`del`). Fails when the name
is missing, the depth bound is exceeded (`fuel = 0`, i.e.
`iteration > maxIteration`) or the name was already visited. In cascade
mode it recurses into every dependent; in reparent mode (string argument)
only the top-level call (`!iteration`) scans, rewriting each direct
child's parent instead of recursing. -/
def del (m : RemoveDeps) : Nat → Bool → String → DelState → Option DelState
  | 0, _, _, _ => none
  | fuel + 1, isTop, name, (entries, names) =>
    if (lookupKey entries name).isNone || names.contains name then none
    else
      match m with
      | .cascade =>
        delScan (fun key st => del m fuel false key st) name entries (entries, name :: names)
      | .reparent np =>
        if isTop then
          delScan (fun key st => some (reparentKey st.1 key np, st.2)) name entries
            (entries, name :: names)
        else some (entries, name :: names)
      | .keep => some (entries, name :: names)

/-- Remove icons (`IconSet.remove`), returning the number of removed
entries together with the updated set. A failing walk returns `(0, s)`
with the store untouched: in cascade mode `del` never mutates the store,
and the visited names are deleted only after the walk succeeds. -/
def removeEntry (s : IconSet) (name : String) (deps : RemoveDeps) : Nat × IconSet :=
  match deps with
  | .reparent np =>
    if name = np || (lookupKey s.entries np).isNone then (0, s)
    else
      match del deps (maxIteration + 1) true name (s.entries, [np]) with
      | none => (0, s)
      | some (entries1, names) =>
        let names1 := names.filter fun n => !(n == np)
        (names1.length,
          { s with entries := entries1.filter fun kv => !(names1.contains kv.1) })
  | _ =>
    match del deps (maxIteration + 1) true name (s.entries, []) with
    | none => (0, s)
    | some (entries1, names) =>
      (names.length,
        { s with entries := entries1.filter fun kv => !(names.contains kv.1) })

/-- The re-keying part of `IconSet.rename`: move the entry stored under
`oldName` to `newName` (the new key is appended, the old one deleted) and
rewrite every parent field pointing at `oldName`. Fails when `oldName` is
absent. -/
def renameCore (s : IconSet) (oldName newName : String) : Bool × IconSet :=
  match lookupKey s.entries oldName with
  | none => (false, s)
  | some item =>
    let es := (s.entries.filter fun kv => kv.1 ≠ oldName) ++ [(newName, item)]
    let es := es.map fun kv =>
      match parentOf kv.2 with
      | some p => if p = oldName then (kv.1, setParentField kv.2 newName) else kv
      | none => kv
    (true, { s with entries := es })

/-- Rename an icon (`IconSet.rename`): an occupant of `newName` is first
removed with the cascading policy (the default `removeDependencies`), and
the rename fails if that removal fails or `oldName` is (then) absent. -/
def renameEntry (s : IconSet) (oldName newName : String) : Bool × IconSet :=
  if (lookupKey s.entries newName).isSome then
    match removeEntry s newName .cascade with
    | (0, s1) => (false, s1)
    | (_ + 1, s1) => renameCore s1 oldName newName
  else renameCore s oldName newName

/-! ### Category Index -/

/-- Worker of `IconSet._filter` with the store used for resolution taken
separately from the list being walked (they coincide in `filterEntries`). -/
def filterEntriesAux (resolveIn : List (String × IconSetIconEntry))
    (callback : String → IconSetIconEntry → Option ResolvedIcon → Bool) :
    List (String × IconSetIconEntry) → List String
  | [] => []
  | kv :: rest =>
    match kv.2 with
    | .icon _ _ _ _ =>
      if callback kv.1 kv.2 none then kv.1 :: filterEntriesAux resolveIn callback rest
      else filterEntriesAux resolveIn callback rest
    | _ =>
      match getIcon resolveIn (maxIteration + 1) kv.1 with
      | some r =>
        if callback kv.1 kv.2 (some r) then kv.1 :: filterEntriesAux resolveIn callback rest
        else filterEntriesAux resolveIn callback rest
      | none => filterEntriesAux resolveIn callback rest

/-- Filter icons (`IconSet._filter`): visit the entries in store order,
handing icons to the callback directly and aliases/variations only after
they resolve, and collect the matching names. -/
def filterEntries (entries : List (String × IconSetIconEntry))
    (callback : String → IconSetIconEntry → Option ResolvedIcon → Bool) : List String :=
  filterEntriesAux entries callback entries

/-- Find category by title (`IconSet.findCategory`): linear scan by
title, with optional creation of a zero-count record. A created record is
a fresh object: it gets a new identity from the allocator, so it is
distinct from every record any icon already holds — even one with the
same title. Returns the found/created record and the (possibly extended)
set. -/
def findCategory (s : IconSet) (title : String) (add : Bool) :
    Option IconCategory × IconSet :=
  match s.categories.find? (fun c => c.title = title) with
  | some c => (some c, s)
  | none =>
    if add then
      let newItem : IconCategory := { id := s.nextCatId, title := title, count := 0 }
      (some newItem,
        { s with categories := s.categories ++ [newItem], nextCatId := s.nextCatId + 1 })
    else (none, s)

/-- Identity membership test (`Set.has` on category records compares
object references, i.e. identities). -/
def hasCatId (cats : List IconCategory) (cid : Nat) : Bool :=
  cats.any fun c => c.id = cid

/-- The icon list computed by `IconSet.listCategory`: visible (non-hidden)
icon entries — never aliases — whose membership set holds the record
(`item.categories.has(categoryItem)`, an identity test). -/
def listCategoryIcons (entries : List (String × IconSetIconEntry)) (cid : Nat) :
    List String :=
  filterEntries entries fun _ item _ =>
    match item with
    | .icon _ props _ cats => !(props.hidden.getD false) && hasCatId cats cid
    | _ => false

/-- Count icons in a category, removing it when empty
(`IconSet.listCategory` applied to a record, as `load` does): recompute
the membership, store the new count on the record, and delete the record
from the index (returning `none`) when no icon remains. Icons holding the
record keep their references; only the index forgets it. -/
def listCategoryRun (s : IconSet) (rec : IconCategory) : Option (List String) × IconSet :=
  let icons := listCategoryIcons s.entries rec.id
  if icons.length = 0 then
    (none, { s with categories := s.categories.filter fun c => ¬ (c.id = rec.id) })
  else
    (some icons,
      { s with categories :=
          s.categories.map fun c =>
            if c.id = rec.id then { c with count := (icons.length : Int) } else c })

/-- Add a record to a membership set (`Set.add`: a no-op when the record
is already held). -/
def addCatRecord (cats : List IconCategory) (rec : IconCategory) : List IconCategory :=
  if hasCatId cats rec.id then cats else cats ++ [rec]

/-- Remove a record from a membership set (`Set.delete`). -/
def removeCatId (cats : List IconCategory) (cid : Nat) : List IconCategory :=
  cats.filter fun c => ¬ (c.id = cid)

/-- Adjust the count of the identified category record by `d`
(`categoryItem.count += …`, as seen through the Category Index). -/
def bumpCount (cats : List IconCategory) (cid : Nat) (d : Int) : List IconCategory :=
  cats.map fun c => if c.id = cid then { c with count := c.count + d } else c

/-- Add or remove a category for an icon (`IconSet.toggleCategory`).
Membership is tested by record identity (`item.categories.has(categoryItem)`)
against the record `findCategory(category, add)` found or created in the
Category Index — a stale record the icon still holds after `listCategory`
pruned it from the index never matches, since `findCategory` then creates
a fresh record. The source resolves/creates the category before checking
that the entry exists and is an icon, so a created record survives even
when the toggle then fails. -/
def toggleCategory (s : IconSet) (iconName title : String) (add : Bool) : Bool × IconSet :=
  let item := lookupKey s.entries iconName
  let found := findCategory s title add
  match item, found.1 with
  | some (.icon body props ch cats), some cat =>
    if hasCatId cats cat.id ≠ add then
      let s2 := { found.2 with categories := bumpCount found.2.categories cat.id (if add then 1 else -1) }
      let newCats := if add then addCatRecord cats cat else removeCatId cats cat.id
      (true, { s2 with entries := setKey s2.entries iconName (.icon body props ch newCats) })
    else (false, found.2)
  | some _, some _ => (false, found.2)
  | _, _ => (false, found.2)

/-! ### Loader

The property filter lives in the repository's `props` module
(`src/icon-set/props.ts`), which is not under `src/` here; it is modelled
from the spec below. -/

/-- Strip an optional value equal to its canonical default. -/
def stripDefault {α : Type} [DecidableEq α] (v : Option α) (d : α) : Option α :=
  match v with
  | some x => if x = d then none else some x
  | none => none

/-- Modelled from the spec: the property-default-filter collaborator
(`filterProps` from the missing `props` module), described as a transform
that "strips/merges default-valued keys per a known schema". When `strip`
is set, every key equal to its `defaultCommonProps` value (dimensions
0/0/16/16, `rotate` 0, flips and `hidden` false) is removed; otherwise the
keys are kept as given. -/
def filterProps (p : IconProps) (strip : Bool) : IconProps :=
  if strip then
    { left := stripDefault p.left 0
      top := stripDefault p.top 0
      width := stripDefault p.width 16
      height := stripDefault p.height 16
      rotate := stripDefault p.rotate 0
      hFlip := stripDefault p.hFlip false
      vFlip := stripDefault p.vFlip false
      hidden := stripDefault p.hidden false }
  else p

/-- Modelled from the spec: the same collaborator restricted to the
icon-set-level default dimensions (`defaultIconDimensions`), used for the
document-level defaults. -/
def filterDims (p : IconProps) : IconProps :=
  { left := stripDefault p.left 0
    top := stripDefault p.top 0
    width := stripDefault p.width 16
    height := stripDefault p.height 16
    rotate := none, hFlip := none, vFlip := none, hidden := none }

/-- Spread `{...a, ...b}`: keys present on `b` win. -/
def mergeRaw (a b : IconProps) : IconProps :=
  { left := b.left.orElse fun _ => a.left
    top := b.top.orElse fun _ => a.top
    width := b.width.orElse fun _ => a.width
    height := b.height.orElse fun _ => a.height
    rotate := b.rotate.orElse fun _ => a.rotate
    hFlip := b.hFlip.orElse fun _ => a.hFlip
    vFlip := b.vFlip.orElse fun _ => a.vFlip
    hidden := b.hidden.orElse fun _ => a.hidden }

/-- Whether any key is present (`Object.keys(props).length`). -/
def hasProps (p : IconProps) : Bool :=
  p.left.isSome || p.top.isSome || p.width.isSome || p.height.isSome ||
    p.rotate.isSome || p.hFlip.isSome || p.vFlip.isSome || p.hidden.isSome

/-- An icon of the input document (`data.icons[name]`). -/
structure IconData where
  body : String
  props : IconProps
deriving DecidableEq, Repr

/-- An alias of the input document (`data.aliases[name]`). -/
structure AliasData where
  parent : String
  props : IconProps
deriving DecidableEq, Repr

/-- A legacy theme (`data.themes[key]`): `pfx`/`sfx` model the source's
`prefix`/`suffix` fields. -/
structure LegacyTheme where
  pfx : Option String
  sfx : Option String
  title : String
deriving DecidableEq, Repr

/-- The external JSON document (`IconifyJSON`), with `pfx` modelling the
source's `prefix` field and `docProps` the icon-set-level default
dimensions spread into every icon. -/
structure IconifyJSONData where
  pfx : String
  docProps : IconProps
  icons : List (String × IconData)
  aliases : List (String × AliasData)
  chars : List (String × String)
  categories : List (String × List String)
  themes : Option (List (String × LegacyTheme))
  prefixes : Option (List (String × String))
  suffixes : Option (List (String × String))
deriving DecidableEq, Repr

/-- Icon phase of `load`: each input icon yields an `Icon` entry with the
set-level defaults merged in and default-valued keys stripped, and empty
character/category sets. -/
def loadIcons (defaults : IconProps) (icons : List (String × IconData)) :
    List (String × IconSetIconEntry) :=
  icons.map fun kv =>
    (kv.1, .icon kv.2.body (filterProps (mergeRaw defaults kv.2.props) true) [] [])

/-- Alias phase of `load`: skip names that already exist, then store a
`Variation` when filtered props remain and an `Alias` otherwise. -/
def loadAliases (entries : List (String × IconSetIconEntry))
    (aliases : List (String × AliasData)) : List (String × IconSetIconEntry) :=
  aliases.foldl
    (fun es kv =>
      if (lookupKey es kv.1).isSome then es
      else
        let props := filterProps kv.2.props false
        if hasProps props then es ++ [(kv.1, .variation kv.2.parent props [])]
        else es ++ [(kv.1, .aliasEntry kv.2.parent [])])
    entries

/-- Append a character to an entry's character set. -/
def addCharTo (entries : List (String × IconSetIconEntry)) (name ch : String) :
    List (String × IconSetIconEntry) :=
  entries.map fun kv =>
    if kv.1 = name then
      (kv.1,
        match kv.2 with
        | .icon b p chars cats => .icon b p (if chars.contains ch then chars else chars ++ [ch]) cats
        | .aliasEntry p chars => .aliasEntry p (if chars.contains ch then chars else chars ++ [ch])
        | .variation p props chars => .variation p props (if chars.contains ch then chars else chars ++ [ch]))
    else kv

/-- Character phase of `load`: each `char → name` pair lands on the named
entry, and is ignored when the name is absent. -/
def loadChars (entries : List (String × IconSetIconEntry))
    (chars : List (String × String)) : List (String × IconSetIconEntry) :=
  chars.foldl
    (fun es kv => if (lookupKey es kv.2).isSome then addCharTo es kv.2 kv.1 else es)
    entries

/-- Add a category record to one listed name when its entry is an `Icon`. -/
def addCatStep (rec : IconCategory) (es : List (String × IconSetIconEntry))
    (iconName : String) : List (String × IconSetIconEntry) :=
  match lookupKey es iconName with
  | some (.icon b p ch cs) => setKey es iconName (.icon b p ch (addCatRecord cs rec))
  | _ => es

/-- Add a category record to the membership set of every listed name whose
entry is an `Icon`. -/
def addCategoryToIcons (es : List (String × IconSetIconEntry)) (rec : IconCategory)
    (members : List String) : List (String × IconSetIconEntry) :=
  members.foldl (addCatStep rec) es

/-- One declared category of `load`: allocate the zero-count record, add
it to every listed `Icon` entry, register it, and immediately recount it
with `listCategory` (which deletes it from the index again when no
visible member remains — the member icons keep their references). -/
def catStep (s : IconSet) (kv : String × List String) : IconSet :=
  (listCategoryRun
    { s with entries := addCategoryToIcons s.entries ⟨s.nextCatId, kv.1, 0⟩ kv.2,
             categories := s.categories ++ [⟨s.nextCatId, kv.1, 0⟩],
             nextCatId := s.nextCatId + 1 }
    ⟨s.nextCatId, kv.1, 0⟩).2

/-- Category phase of `load`. -/
def loadCategories (s : IconSet) (cats : List (String × List String)) : IconSet :=
  cats.foldl catStep s

/-- Legacy theme import of `load`: a theme `prefix` ending in `-` feeds
the prefix table under the stripped key, a `suffix` starting with `-`
feeds the suffix table. -/
def legacyTables (themes : List (String × LegacyTheme)) :
    List (String × String) × List (String × String) :=
  themes.foldl
    (fun tabs kv =>
      let item := kv.2
      let tabs1 :=
        match item.pfx with
        | some p => if p.takeRight 1 = "-" then (setKey tabs.1 (p.dropRight 1) item.title, tabs.2) else tabs
        | none => tabs
      match item.sfx with
      | some sf => if sf.take 1 = "-" then (tabs1.1, setKey tabs1.2 (sf.drop 1) item.title) else tabs1
      | none => tabs1)
    ([], [])

/-- Copy an explicit `prefixes`/`suffixes` field into a fresh table
(`this[prop] = Object.create(null)` followed by per-key assignment). -/
def copyTable (items : List (String × String)) : List (String × String) :=
  items.foldl (fun t kv => setKey t kv.1 kv.2) []

/-- Load an icon set (`IconSet.load` / the constructor). Note the theme
phase: the legacy `themes` block is imported first, but an explicit
`prefixes`/`suffixes` field starts over from a fresh table, so it replaces
the legacy-derived table wholesale. -/
def load (data : IconifyJSONData) : IconSet :=
  let defaults := filterDims data.docProps
  let entries := loadIcons defaults data.icons
  let entries := loadAliases entries data.aliases
  let entries := loadChars entries data.chars
  let s : IconSet :=
    { pfx := data.pfx, entries := entries, categories := [], prefixes := [],
      suffixes := [], nextCatId := 0 }
  let s := loadCategories s data.categories
  let legacy :=
    match data.themes with
    | some th => legacyTables th
    | none => ([], [])
  let prefTable :=
    match data.prefixes with
    | some items => copyTable items
    | none => legacy.1
  let sufTable :=
    match data.suffixes with
    | some items => copyTable items
    | none => legacy.2
  { s with prefixes := prefTable, suffixes := sufTable }

/-! ### Theme Matcher -/

/-- The comparator of `sortThemeKeys`: longer keys first, ties broken by
string comparison (`localeCompare` modelled as lexicographic order). -/
def themeKeyOrder (a b : String) : Prop :=
  b.length < a.length ∨ (a.length = b.length ∧ a ≤ b)

instance : DecidableRel themeKeyOrder := fun a b =>
  inferInstanceAs (Decidable (b.length < a.length ∨ (a.length = b.length ∧ a ≤ b)))

instance : IsTotal String themeKeyOrder where
  total a b := by
    rcases Nat.lt_trichotomy a.length b.length with h | h | h
    · exact Or.inr (Or.inl h)
    · rcases le_total a b with h2 | h2
      · exact Or.inl (Or.inr ⟨h, h2⟩)
      · exact Or.inr (Or.inr ⟨h.symm, h2⟩)
    · exact Or.inl (Or.inl h)

instance : IsTrans String themeKeyOrder where
  trans _ _ _ hab hbc := by
    rcases hab with h1 | ⟨h1, h1'⟩ <;> rcases hbc with h2 | ⟨h2, h2'⟩
    · exact Or.inl (h2.trans h1)
    · exact Or.inl (h2 ▸ h1)
    · exact Or.inl (h1 ▸ h2)
    · exact Or.inr ⟨h1.trans h2, le_trans h1' h2'⟩

/-- Sort theme keys (`sortThemeKeys`): long keys first. -/
def sortThemeKeys (keys : List String) : List String :=
  List.insertionSort themeKeyOrder keys

/-- Whether a theme key matches an icon name (`checkTheme`'s inner loop
body): the empty key matches everything, a prefix key matches
`key ++ "-"` at the start, a suffix key matches `"-" ++ key` at the end. -/
def matchesThemeKey (pfx : Bool) (key name : String) : Bool :=
  if key = "" then true
  else
    let m := if pfx then key ++ "-" else "-" ++ key
    if pfx then name.take m.length = m else name.takeRight m.length = m

/-- Result of `checkTheme`. -/
structure CheckThemeResult where
  valid : List (String × List String)
  invalid : List String
deriving DecidableEq, Repr

/-- Append a name to one key's bucket. -/
def pushBucket (valid : List (String × List String)) (key name : String) :
    List (String × List String) :=
  valid.map fun kv => if kv.1 = key then (kv.1, kv.2 ++ [name]) else kv

/-- Visibility test of `checkTheme`'s filter callback: aliases never
count, icons count unless hidden, variations count when they resolve and
neither their own props nor the resolved icon are hidden. -/
def themeVisible (entries : List (String × IconSetIconEntry))
    (kv : String × IconSetIconEntry) : Bool :=
  match kv.2 with
  | .icon _ props _ _ => !(props.hidden.getD false)
  | .aliasEntry _ _ => false
  | .variation _ props _ =>
    match getIcon entries (maxIteration + 1) kv.1 with
    | none => false
    | some r => !(props.hidden.getD false) && !(r.props.hidden.getD false)

/-- One entry of `checkTheme`'s filter pass: a visible icon goes to the
bucket of the first matching sorted key, or to the invalid list when no
key matches; anything else is skipped. -/
def themeStep (entries : List (String × IconSetIconEntry)) (pfx : Bool)
    (keys : List String) (st : CheckThemeResult) (kv : String × IconSetIconEntry) :
    CheckThemeResult :=
  if themeVisible entries kv then
    match keys.find? (fun k => matchesThemeKey pfx k kv.1) with
    | some k => { st with valid := pushBucket st.valid k kv.1 }
    | none => { st with invalid := st.invalid ++ [kv.1] }
  else st

/-- Find icons that belong to a theme (`IconSet.checkTheme`): sort the
keys of the chosen table, then give every visible icon to the first
matching key's bucket, or to the invalid list when no key matches. -/
def checkTheme (s : IconSet) (pfx : Bool) : CheckThemeResult :=
  let themes := if pfx then s.prefixes else s.suffixes
  let keys := sortThemeKeys (themes.map Prod.fst)
  s.entries.foldl (themeStep s.entries pfx keys)
    { valid := keys.map fun k => (k, []), invalid := [] }

/-! ### Specification-side definitions and concrete stores used by the
claims -/

/-- The claim's merge rule for the overwrite keys, following the spec's
words: an override that is present is copied/overwritten regardless of its
value. (Comparison definition for the refinement claim about the
variation merge; the source merge is `mergeDim` etc.) -/
def specMergeDim (p o : Option Int) : Option Int :=
  match o with
  | none => p
  | some v => some v

/-- The claim's merge rule for `rotate`: present overrides always sum with
the parent modulo 4, or are copied verbatim when the parent lacks the
key. -/
def specMergeRotate (p o : Option Nat) : Option Nat :=
  match o with
  | none => p
  | some v =>
    match p with
    | none => some v
    | some pv => some ((pv + v) % 4)

/-- The claim's merge rule for the flip flags: present overrides always
toggle the parent's flag, or are copied verbatim when the parent lacks the
key. -/
def specMergeFlip (p o : Option Bool) : Option Bool :=
  match o with
  | none => p
  | some v =>
    match p with
    | none => some v
    | some pv => some (!pv)

/-- The claim's merge rule for `hidden` (overwrite). -/
def specMergeHidden (p o : Option Bool) : Option Bool :=
  match o with
  | none => p
  | some v => some v

/-- The variation merge exactly as the claim states it: every property
present on the variation is merged, with no truthiness filter. -/
def mergeVariationSpec (p o : IconProps) : IconProps :=
  { left := specMergeDim p.left o.left
    top := specMergeDim p.top o.top
    width := specMergeDim p.width o.width
    height := specMergeDim p.height o.height
    rotate := specMergeRotate p.rotate o.rotate
    hFlip := specMergeFlip p.hFlip o.hFlip
    vFlip := specMergeFlip p.vFlip o.vFlip
    hidden := specMergeHidden p.hidden o.hidden }

/-- Every key present on the override carries a truthy value (non-zero
numbers, `true` flags). -/
def truthyProps (o : IconProps) : Bool :=
  o.left != some 0 && o.top != some 0 && o.width != some 0 && o.height != some 0 &&
    o.rotate != some 0 && o.hFlip != some false && o.vFlip != some false &&
    o.hidden != some false

/-- Whether a key occurs in an association list, with no duplicates. -/
abbrev keysNodup {β : Type} (l : List (String × β)) : Prop :=
  (l.map Prod.fst).Nodup

/-- A direct dependency edge: the entry stored under `c` is an
alias/variation whose parent field is `p`. -/
def childOf (entries : List (String × IconSetIconEntry)) (c p : String) : Prop :=
  ∃ item, lookupKey entries c = some item ∧ parentOf item = some p

/-- Transitive dependency on `root`: `root` itself, together with every
name whose stored parent chain leads to `root`. -/
inductive Depends (entries : List (String × IconSetIconEntry)) (root : String) :
    String → Prop where
  | base : Depends entries root root
  | step {k p : String} : childOf entries k p → Depends entries root p →
      Depends entries root k

/-- One entry grew only by gaining the category record `t`: icons keep
body, props and characters while their category set may gain `t`; other
entries are unchanged. -/
def entryExtendsBy (t : IconCategory) (e1 e2 : IconSetIconEntry) : Prop :=
  match e1, e2 with
  | .icon b p ch cs, .icon b2 p2 ch2 cs2 =>
    b = b2 ∧ p = p2 ∧ ch = ch2 ∧ cs ⊆ cs2 ∧ ∀ u ∈ cs2, u ∈ cs ∨ u = t
  | e1, e2 => e1 = e2

/-- Pointwise extension of a store by the category record `t`: same keys
in the same order, each entry extended per `entryExtendsBy`. -/
def storeExtendsBy (t : IconCategory) (E1 E2 : List (String × IconSetIconEntry)) : Prop :=
  List.Forall₂ (fun kv1 kv2 => kv1.1 = kv2.1 ∧ entryExtendsBy t kv1.2 kv2.2) E1 E2

/-- Visible icon entries holding some membership record carrying the given
title — live or stale. Used to state the pruning claim: a title a visible
icon refers to is still registered. -/
def titleMembers (entries : List (String × IconSetIconEntry)) (title : String) :
    List String :=
  filterEntries entries fun _ item _ =>
    match item with
    | .icon _ props _ cats =>
      !(props.hidden.getD false) && cats.any (fun c => c.title = title)
    | _ => false

/-- Every membership record a visible icon of the store holds is
registered: some index record shares its identity and title. `load`
establishes this for every title; it is the reason a pruned category can
only be one without visible members. -/
def visibleHeldRegistered (s : IconSet) : Prop :=
  ∀ kv ∈ s.entries, ∀ b p ch cs, kv.2 = IconSetIconEntry.icon b p ch cs →
    (p.hidden.getD false) = false →
    ∀ c ∈ cs, ∃ c2 ∈ s.categories, c2.id = c.id ∧ c2.title = c.title

/-- Every membership record held by any icon of the store has an identity
below the allocator's next value — freshness of newly allocated records. -/
def heldIdsBelow (entries : List (String × IconSetIconEntry)) (n : Nat) : Prop :=
  ∀ kv ∈ entries, ∀ b p ch cs, kv.2 = IconSetIconEntry.icon b p ch cs →
    ∀ c ∈ cs, c.id < n

/-- No entry of the store holds any category membership yet — the state of
the entry store before `load`'s category phase. -/
def entriesNoCats (entries : List (String × IconSetIconEntry)) : Prop :=
  ∀ kv ∈ entries, ∀ b p ch cs, kv.2 = IconSetIconEntry.icon b p ch cs → cs = []

/-- A plain 16x16 icon body used by the concrete stores. -/
def xIcon : IconSetIconEntry := .icon "b" noProps [] []

/-- Store with a single icon `x` (base of the alias-cycle scenario). -/
def S0cyc : IconSet := ⟨"p", [("x", xIcon)], [], [], [], 0⟩

/-- Store with a two-element alias cycle `a → b → a`. -/
def cycSet : IconSet :=
  ⟨"p", [("a", .aliasEntry "b" []), ("b", .aliasEntry "a" [])], [], [], [], 0⟩

/-- Store with an 8-entry alias chain: `c7 → c6 → ... → c0` (icon), so
`c6` resolves through 6 hops while `c7` needs 7. -/
def chainSet : IconSet :=
  ⟨"p",
    [("c0", xIcon), ("c1", .aliasEntry "c0" []), ("c2", .aliasEntry "c1" []),
     ("c3", .aliasEntry "c2" []), ("c4", .aliasEntry "c3" []),
     ("c5", .aliasEntry "c4" []), ("c6", .aliasEntry "c5" []),
     ("c7", .aliasEntry "c6" [])], [], [], [], 0⟩

/-- Base icon with rotation 0 under four stacked rotation-1 variations. -/
def stackSet : IconSet :=
  ⟨"p",
    [("x", .icon "b" { noProps with rotate := some 0 } [] []),
     ("v1", .variation "x" { noProps with rotate := some 1 } []),
     ("v2", .variation "v1" { noProps with rotate := some 1 } []),
     ("v3", .variation "v2" { noProps with rotate := some 1 } []),
     ("v4", .variation "v3" { noProps with rotate := some 1 } [])], [], [], [], 0⟩

/-- Icon with `hFlip` set under a variation overriding `hFlip` with the
falsy value `false`. -/
def Sc1 : IconSet :=
  ⟨"p",
    [("x", .icon "b" { noProps with hFlip := some true } [] []),
     ("v", .variation "x" { noProps with hFlip := some false } [])], [], [], [], 0⟩

/-- Icon `x` with an alias `a` and a variation `c` on `a`, plus an
unrelated icon `z`. -/
def Sc3 : IconSet :=
  ⟨"p",
    [("x", xIcon), ("a", .aliasEntry "x" []),
     ("c", .variation "a" { noProps with rotate := some 1 } []), ("z", xIcon)],
    [], [], [], 0⟩

/-- The store left after cascading removal of `x` from `Sc3`. -/
def Sc3After : IconSet := ⟨"p", [("z", xIcon)], [], [], [], 0⟩

/-- Icon `x` under a 7-deep alias chain of dependents, so a cascading
remove of `x` hits the depth bound. -/
def Sdeep : IconSet :=
  ⟨"p",
    [("x", xIcon), ("a1", .aliasEntry "x" []), ("a2", .aliasEntry "a1" []),
     ("a3", .aliasEntry "a2" []), ("a4", .aliasEntry "a3" []),
     ("a5", .aliasEntry "a4" []), ("a6", .aliasEntry "a5" []),
     ("a7", .aliasEntry "a6" [])], [], [], [], 0⟩

/-- Icon `b` with an alias `a`, the rename-failure scenario. -/
def Sc5 : IconSet := ⟨"p", [("b", xIcon), ("a", .aliasEntry "b" [])], [], [], [], 0⟩

/-- Document carrying both a legacy theme (prefix `a-`) and an explicit
`prefixes` field without the key `a`. -/
def C6doc : IconifyJSONData :=
  { pfx := "p", docProps := noProps, icons := [], aliases := [], chars := [],
    categories := [], themes := some [("t1", ⟨some "a-", none, "A"⟩)],
    prefixes := some [("b", "B")], suffixes := none }

/-- Document declaring a category whose member list resolves to no Icon
entry, next to a non-empty one. -/
def C7doc : IconifyJSONData :=
  { pfx := "p", docProps := noProps, icons := [("a", ⟨"x", noProps⟩)], aliases := [],
    chars := [], categories := [("Empty", ["zzz"]), ("Good", ["a"])],
    themes := none, prefixes := none, suffixes := none }

/-- The empty store. -/
def Sc8 : IconSet := ⟨"p", [], [], [], [], 0⟩

/-- Document with a hidden icon `h` listed under category `C`: after
`load`, `listCategory` prunes `C` from the Category Index while `h` still
holds its record — the stale-reference scenario. -/
def C8doc : IconifyJSONData :=
  { pfx := "p", docProps := noProps,
    icons := [("h", ⟨"x", { noProps with hidden := some true }⟩)],
    aliases := [], chars := [], categories := [("C", ["h"])],
    themes := none, prefixes := none, suffixes := none }

/-- Store with themed icon names and a prefix table carrying a catch-all
key. -/
def Sc9 : IconSet :=
  ⟨"p",
    [("mdi-home", xIcon), ("home", xIcon), ("mdi-light-x", xIcon), ("weird", xIcon)],
    [], [("mdi", "Material"), ("mdi-light", "Light"), ("", "Other")], [], 0⟩

/-! ## Theorems -/

theorem mergeDim_eq_spec {p o : Option Int} (h : o ≠ some 0) :
    mergeDim p o = specMergeDim p o := by
  cases o with
  | none => rfl
  | some v =>
    have hv : ¬ (v = 0) := fun hv => h (by simp [hv])
    simp [mergeDim, specMergeDim, hv]

theorem mergeRotate_eq_spec {p : Option Nat} {o : Option Nat} (h : o ≠ some 0) :
    mergeRotate p o = specMergeRotate p o := by
  cases o with
  | none => rfl
  | some v =>
    have hv : ¬ (v = 0) := fun hv => h (by simp [hv])
    simp [mergeRotate, specMergeRotate, hv]

theorem mergeFlip_eq_spec {p o : Option Bool} (h : o ≠ some false) :
    mergeFlip p o = specMergeFlip p o := by
  cases o with
  | none => rfl
  | some v =>
    cases v with
    | false => exact absurd rfl h
    | true => simp [mergeFlip, specMergeFlip]

theorem mergeHidden_eq_spec {p o : Option Bool} (h : o ≠ some false) :
    mergeHidden p o = specMergeHidden p o := by
  cases o with
  | none => rfl
  | some v =>
    cases v with
    | false => exact absurd rfl h
    | true => simp [mergeHidden, specMergeHidden]

/-- C1 (amended): `resolve` merges a variation's overrides onto the
resolved parent with `mergeVariation`, which applies the claim's
per-key rules (copy verbatim when the parent lacks the key; otherwise sum
rotations modulo 4, toggle flips, overwrite the rest) to every override
whose value is truthy, while an override present with a falsy value
(`0` / `false`) is skipped and leaves the parent's value untouched.
Stacking rotation-1 variations over a rotation-0 base still yields
rotations 2, 3 and 0 after two, three and four levels. -/
theorem c1_variation_merge :
    (∀ p o : IconProps, truthyProps o = true → mergeVariation p o = mergeVariationSpec p o) ∧
    (∀ p o : IconProps,
      (o.rotate = some 0 → (mergeVariation p o).rotate = p.rotate) ∧
      (o.hFlip = some false → (mergeVariation p o).hFlip = p.hFlip) ∧
      (o.vFlip = some false → (mergeVariation p o).vFlip = p.vFlip)) ∧
    (∀ (entries : List (String × IconSetIconEntry)) (fuel : Nat) (name parent : String)
        (props : IconProps) (ch : List String) (r : ResolvedIcon),
      lookupKey entries name = some (.variation parent props ch) →
      getIcon entries fuel parent = some r →
      getIcon entries (fuel + 1) name = some ⟨r.body, mergeVariation r.props props⟩) ∧
    ((resolve stackSet "v2").map (fun r => r.props.rotate) = some (some 2) ∧
     (resolve stackSet "v3").map (fun r => r.props.rotate) = some (some 3) ∧
     (resolve stackSet "v4").map (fun r => r.props.rotate) = some (some 0)) := by
  refine ⟨?_, ?_, ?_, by decide⟩
  · intro p o h
    simp only [truthyProps, Bool.and_eq_true, bne_iff_ne] at h
    obtain ⟨⟨⟨⟨⟨⟨⟨h1, h2⟩, h3⟩, h4⟩, h5⟩, h6⟩, h7⟩, h8⟩ := h
    simp [mergeVariation, mergeVariationSpec, mergeDim_eq_spec, mergeRotate_eq_spec,
      mergeFlip_eq_spec, mergeHidden_eq_spec, h1, h2, h3, h4, h5, h6, h7, h8]
  · intro p o
    refine ⟨fun h => ?_, fun h => ?_, fun h => ?_⟩
    · simp [mergeVariation, h, mergeRotate]
    · simp [mergeVariation, h, mergeFlip]
    · simp [mergeVariation, h, mergeFlip]
  · intro entries fuel name parent props ch r h1 h2
    simp [getIcon, h1, h2]

/-- Witness for the amended variation-merge claim at a concrete input. -/
theorem c1_variation_merge_witness :
    truthyProps { noProps with rotate := some 1 } = true ∧
    mergeVariation { noProps with rotate := some 2 } { noProps with rotate := some 1 } =
      mergeVariationSpec { noProps with rotate := some 2 } { noProps with rotate := some 1 } :=
  ⟨by decide, c1_variation_merge.1 _ _ (by decide)⟩

/-- C1 (counterexample): in the store `Sc1` the variation `v` overrides
`hFlip` with the (present but falsy) value `false` over a parent with
`hFlip = true`; the claim's merge would toggle the parent's flag to
`false`, but `resolve` skips the falsy override and keeps `hFlip = true`. -/
theorem c1_counterexample :
    lookupKey Sc1.entries "v" =
      some (.variation "x" { noProps with hFlip := some false } []) ∧
    resolve Sc1 "x" = some ⟨"b", { noProps with hFlip := some true }⟩ ∧
    resolve Sc1 "v" = some ⟨"b", { noProps with hFlip := some true }⟩ ∧
    mergeVariationSpec { noProps with hFlip := some true }
        { noProps with hFlip := some false } ≠
      { noProps with hFlip := some true } := by
  refine ⟨by decide, by decide, by decide, by decide⟩

/-- C10: `setItem`'s referential check only requires the parent to exist
at the moment of the call, so alias cycles can be built through calls that
all succeed: starting from a store with only the icon `x`, the calls
`setAlias a x`, `setAlias b a`, `setAlias a b` all return `true`, after
which both `a` and `b` resolve to "not found". -/
theorem c10_setItem_cycles :
    (∀ (s : IconSet) (name parent : String),
      (lookupKey s.entries parent).isSome → (setAlias s name parent).1 = true) ∧
    ((setAlias S0cyc "a" "x").1 = true ∧
     (setAlias ((setAlias S0cyc "a" "x").2) "b" "a").1 = true ∧
     (setAlias ((setAlias ((setAlias S0cyc "a" "x").2) "b" "a").2) "a" "b").1 = true ∧
     resolve ((setAlias ((setAlias ((setAlias S0cyc "a" "x").2) "b" "a").2) "a" "b").2) "a"
       = none ∧
     resolve ((setAlias ((setAlias ((setAlias S0cyc "a" "x").2) "b" "a").2) "a" "b").2) "b"
       = none) := by
  refine ⟨?_, by decide⟩
  intro s name parent h
  cases hp : lookupKey s.entries parent with
  | none => rw [hp] at h; simp at h
  | some v => simp [setAlias, setItem, parentOf, hp]

/-- Witness for the `setItem` success condition at a concrete input. -/
theorem c10_setItem_cycles_witness :
    (lookupKey S0cyc.entries "x").isSome = true ∧ (setAlias S0cyc "y" "x").1 = true :=
  ⟨by decide, c10_setItem_cycles.1 S0cyc "y" "x" (by decide)⟩

theorem none_iff_shift (entries : List (String × IconSetIconEntry)) (fuel : Nat)
    (name p : String)
    (hstep : ∀ k, follow entries (k + 1) name = follow entries k p)
    (href : isRefSlot (lookupKey entries name) = true) :
    ((∃ k, k < fuel + 1 ∧ ∃ m, follow entries k name = some m ∧
        lookupKey entries m = none) ∨
     (∀ k, k < fuel + 1 → ∃ m, follow entries k name = some m ∧
        isRefSlot (lookupKey entries m) = true)) ↔
    ((∃ k, k < fuel ∧ ∃ m, follow entries k p = some m ∧
        lookupKey entries m = none) ∨
     (∀ k, k < fuel → ∃ m, follow entries k p = some m ∧
        isRefSlot (lookupKey entries m) = true)) := by
  constructor
  · rintro (⟨k, hk, m, hf, hm⟩ | hall)
    · cases k with
      | zero =>
        simp only [follow, Option.some.injEq] at hf
        subst hf
        rw [hm] at href
        simp [isRefSlot] at href
      | succ j =>
        exact Or.inl ⟨j, Nat.lt_of_succ_lt_succ hk, m, by rw [← hstep j]; exact hf, hm⟩
    · refine Or.inr fun k hk => ?_
      have := hall (k + 1) (Nat.succ_lt_succ hk)
      rwa [hstep k] at this
  · rintro (⟨k, hk, m, hf, hm⟩ | hall)
    · exact Or.inl ⟨k + 1, Nat.succ_lt_succ hk, m, by rw [hstep k]; exact hf, hm⟩
    · refine Or.inr fun k hk => ?_
      cases k with
      | zero => exact ⟨name, rfl, href⟩
      | succ j =>
        rw [hstep j]
        exact hall j (Nat.lt_of_succ_lt_succ hk)

theorem getIcon_none_iff (entries : List (String × IconSetIconEntry)) :
    ∀ (fuel : Nat) (name : String),
      getIcon entries fuel name = none ↔
        ((∃ k, k < fuel ∧ ∃ m, follow entries k name = some m ∧
            lookupKey entries m = none) ∨
         (∀ k, k < fuel → ∃ m, follow entries k name = some m ∧
            isRefSlot (lookupKey entries m) = true)) := by
  intro fuel
  induction fuel with
  | zero =>
    intro name
    constructor
    · intro _
      exact Or.inr fun k hk => absurd hk (Nat.not_lt_zero k)
    · intro _
      rfl
  | succ fuel ih =>
    intro name
    cases h : lookupKey entries name with
    | none =>
      constructor
      · intro _
        exact Or.inl ⟨0, Nat.succ_pos fuel, name, rfl, h⟩
      · intro _
        simp [getIcon, h]
    | some e =>
      cases e with
      | icon body props ch cats =>
        constructor
        · intro hx
          exfalso
          simp [getIcon, h] at hx
        · rintro (⟨k, hk, m, hf, hm⟩ | hall)
          · exfalso
            cases k with
            | zero =>
              simp only [follow, Option.some.injEq] at hf
              subst hf
              rw [h] at hm
              exact Option.noConfusion hm
            | succ j => simp [follow, h] at hf
          · exfalso
            obtain ⟨m, hf, hm⟩ := hall 0 (Nat.succ_pos fuel)
            simp only [follow, Option.some.injEq] at hf
            subst hf
            rw [h] at hm
            simp [isRefSlot] at hm
      | aliasEntry p ch =>
        have hstep : ∀ k, follow entries (k + 1) name = follow entries k p :=
          fun k => by simp [follow, h]
        have href : isRefSlot (lookupKey entries name) = true := by simp [isRefSlot, h]
        have hl : getIcon entries (fuel + 1) name = getIcon entries fuel p := by
          simp [getIcon, h]
        rw [hl, ih p]
        exact (none_iff_shift entries fuel name p hstep href).symm
      | variation p props ch =>
        have hstep : ∀ k, follow entries (k + 1) name = follow entries k p :=
          fun k => by simp [follow, h]
        have href : isRefSlot (lookupKey entries name) = true := by simp [isRefSlot, h]
        have hl : getIcon entries (fuel + 1) name = none ↔ getIcon entries fuel p = none := by
          simp only [getIcon, h]
          cases hg : getIcon entries fuel p <;> simp
        rw [hl, ih p]
        exact (none_iff_shift entries fuel name p hstep href).symm

/-- C2: `resolve` reports "not found" — the absent result, never a
distinct error — exactly when the parent chain reaches a name that is
unknown in the store within the depth bound, or is still on
aliases/variations at every hop up to the 6-hop bound (cycles and
overlong chains). In particular the cycle `a → b → a` and the 7-hop
chain `c7` resolve to "not found", while the 6-hop chain `c6` resolves. -/
theorem c2_resolve_not_found :
    (∀ (s : IconSet) (name : String),
      resolve s name = none ↔
        ((∃ k, k ≤ maxIteration ∧ ∃ m, follow s.entries k name = some m ∧
            lookupKey s.entries m = none) ∨
         (∀ k, k ≤ maxIteration → ∃ m, follow s.entries k name = some m ∧
            isRefSlot (lookupKey s.entries m) = true))) ∧
    resolve cycSet "a" = none ∧ resolve cycSet "b" = none ∧
    resolve chainSet "c7" = none ∧ resolve chainSet "c6" ≠ none := by
  refine ⟨?_, by decide, by decide, by decide, by decide⟩
  intro s name
  have h := getIcon_none_iff s.entries (maxIteration + 1) name
  simpa [resolve, Nat.lt_succ_iff] using h

/-- Witness: the general characterization applied to the concrete cycle. -/
theorem c2_resolve_not_found_witness :
    (∃ k, k ≤ maxIteration ∧ ∃ m, follow cycSet.entries k "a" = some m ∧
        lookupKey cycSet.entries m = none) ∨
    (∀ k, k ≤ maxIteration → ∃ m, follow cycSet.entries k "a" = some m ∧
        isRefSlot (lookupKey cycSet.entries m) = true) :=
  (c2_resolve_not_found.1 cycSet "a").mp (by decide)

theorem lookupKey_of_mem_nodup {β : Type} :
    ∀ (l : List (String × β)), keysNodup l → ∀ (k : String) (v : β),
      (k, v) ∈ l → lookupKey l k = some v := by
  intro l
  induction l with
  | nil => intro _ k v h; cases h
  | cons kv rest ih =>
    intro hnd k v h
    obtain ⟨k0, v0⟩ := kv
    simp only [keysNodup, List.map_cons, List.nodup_cons] at hnd
    obtain ⟨hk0, hrest⟩ := hnd
    rcases List.mem_cons.mp h with heq | hmem
    · injection heq with h1 h2
      subst h1
      subst h2
      simp [lookupKey]
    · have hne : k0 ≠ k := fun he => by
        subst he
        exact hk0 (List.mem_map.mpr ⟨(k0, v), hmem, rfl⟩)
      simp only [lookupKey, if_neg hne]
      exact ih hrest k v hmem

theorem mem_of_lookupKey {β : Type} :
    ∀ (l : List (String × β)) (k : String) (v : β),
      lookupKey l k = some v → (k, v) ∈ l := by
  intro l
  induction l with
  | nil => intro k v h; exact absurd h (by simp [lookupKey])
  | cons kv rest ih =>
    intro k v h
    obtain ⟨k0, v0⟩ := kv
    by_cases he : k0 = k
    · subst he
      simp only [lookupKey, if_true, eq_self_iff_true, Option.some.injEq] at h
      subst h
      exact List.mem_cons_self _ _
    · simp only [lookupKey, if_neg he] at h
      exact List.mem_cons_of_mem _ (ih k v h)

theorem exists_of_lookupKey_isSome {β : Type} (l : List (String × β)) (k : String)
    (h : (lookupKey l k).isSome = true) : ∃ v, (k, v) ∈ l := by
  cases hv : lookupKey l k with
  | none => rw [hv] at h; simp at h
  | some v => exact ⟨v, mem_of_lookupKey l k v hv⟩

theorem dependsTrans {E : List (String × IconSetIconEntry)} {r m k : String}
    (h1 : Depends E r m) (h2 : Depends E m k) : Depends E r k := by
  induction h2 with
  | base => exact h1
  | step hc _ ih => exact Depends.step hc ih

theorem delScan_mono (onChild : String → DelState → Option DelState) (name : String)
    (hmono : ∀ c st out, onChild c st = some out → ∃ new, out.2 = new ++ st.2) :
    ∀ (rest : List (String × IconSetIconEntry)) (st out : DelState),
      delScan onChild name rest st = some out → ∃ new, out.2 = new ++ st.2 := by
  intro rest
  induction rest with
  | nil =>
    intro st out h
    simp only [delScan, Option.some.injEq] at h
    subst h
    exact ⟨[], rfl⟩
  | cons kv rest ih =>
    intro st out h
    obtain ⟨key, item⟩ := kv
    cases hp : parentOf item with
    | none =>
      simp only [delScan, hp] at h
      exact ih st out h
    | some p =>
      by_cases hpn : p = name
      · simp only [delScan, hp, if_pos hpn] at h
        cases hc : onChild key st with
        | none => rw [hc] at h; exact Option.noConfusion h
        | some st1 =>
          rw [hc] at h
          obtain ⟨n1, h1⟩ := hmono key st st1 hc
          obtain ⟨n2, h2⟩ := ih st1 out h
          exact ⟨n2 ++ n1, by rw [h2, h1, List.append_assoc]⟩
      · simp only [delScan, hp, if_neg hpn] at h
        exact ih st out h

theorem del_mono :
    ∀ (fuel : Nat) (isTop : Bool) (name : String) (st out : DelState),
      del .cascade fuel isTop name st = some out →
      (∃ new, out.2 = new ++ st.2) ∧ name ∈ out.2 := by
  intro fuel
  induction fuel with
  | zero => intro _ _ st out h; exact absurd h (by simp [del])
  | succ fuel ih =>
    intro isTop name st out h
    obtain ⟨entries, names⟩ := st
    simp only [del] at h
    by_cases hg : ((lookupKey entries name).isNone || names.contains name) = true
    · rw [if_pos hg] at h; exact Option.noConfusion h
    · rw [if_neg hg] at h
      have hmono : ∀ c st1 o, del RemoveDeps.cascade fuel false c st1 = some o →
          ∃ new, o.2 = new ++ st1.2 := fun c st1 o hc => (ih false c st1 o hc).1
      obtain ⟨new, hnew⟩ :=
        delScan_mono (fun key st => del RemoveDeps.cascade fuel false key st) name hmono
          entries (entries, name :: names) out h
      refine ⟨⟨new ++ [name], by rw [hnew]; simp⟩, by rw [hnew]; simp⟩

theorem delScan_master (E : List (String × IconSetIconEntry)) (hE : keysNodup E)
    (root : String) (onChild : String → DelState → Option DelState)
    (hchild : ∀ c ns out, onChild c (E, ns) = some out →
      out.1 = E ∧ ∃ new, out.2 = new ++ ns ∧ c ∈ new ∧ new.Nodup ∧
        (∀ k ∈ new, Depends E c k ∧ k ∉ ns ∧ (lookupKey E k).isSome = true) ∧
        (∀ p ∈ out.2, p ∉ ns → ∀ d, childOf E d p → d ∈ out.2)) :
    ∀ (rest : List (String × IconSetIconEntry)), (∀ x ∈ rest, x ∈ E) →
      ∀ (ns : List String) (out : DelState),
        delScan onChild root rest (E, ns) = some out →
        out.1 = E ∧ ∃ new, out.2 = new ++ ns ∧ new.Nodup ∧
          (∀ k ∈ new, Depends E root k ∧ k ∉ ns ∧ (lookupKey E k).isSome = true) ∧
          (∀ p ∈ out.2, p ∉ ns → ∀ d, childOf E d p → d ∈ out.2) ∧
          (∀ c it, (c, it) ∈ rest → parentOf it = some root → c ∈ out.2) := by
  intro rest
  induction rest with
  | nil =>
    intro _ ns out h
    simp only [delScan, Option.some.injEq] at h
    subst h
    refine ⟨rfl, [], rfl, List.nodup_nil, ?_, ?_, ?_⟩
    · intro k hk
      cases hk
    · intro p hp hnp _ _
      exact absurd hp hnp
    · intro c it hmem
      cases hmem
  | cons kv rest ih =>
    intro hsub ns out h
    obtain ⟨key, item⟩ := kv
    have hsub' : ∀ x ∈ rest, x ∈ E := fun x hx => hsub x (List.mem_cons_of_mem _ hx)
    have hkeyE : (key, item) ∈ E := hsub _ (List.mem_cons_self _ _)
    cases hp : parentOf item with
    | none =>
      simp only [delScan, hp] at h
      obtain ⟨h1, new, h2, h3, h4, h5, h6⟩ := ih hsub' ns out h
      refine ⟨h1, new, h2, h3, h4, h5, ?_⟩
      intro c it hmem hpar
      rcases List.mem_cons.mp hmem with heq | hmem'
      · injection heq with hc hit
        subst hc
        subst hit
        rw [hp] at hpar
        exact Option.noConfusion hpar
      · exact h6 c it hmem' hpar
    | some p =>
      by_cases hpr : p = root
      · have hpr' : root = p := hpr.symm
        subst hpr'
        simp only [delScan, hp, if_pos rfl] at h
        cases hc : onChild key (E, ns) with
        | none =>
          rw [hc] at h
          exact Option.noConfusion h
        | some st1 =>
          rw [hc] at h
          obtain ⟨hc1, new1, hc2, hckey, hcnodup, hcmem, hcclosed⟩ := hchild key ns st1 hc
          obtain ⟨e1, ns1⟩ := st1
          replace hc1 : E = e1 := hc1.symm
          replace hc2 : ns1 = new1 ++ ns := hc2
          subst hc1
          obtain ⟨h1, new2, h2, hnodup2, hmem2, hclosed2, hrest2⟩ := ih hsub' ns1 out h
          replace h2 : out.2 = new2 ++ ns1 := h2
          have hchildroot : childOf E key root :=
            ⟨item, lookupKey_of_mem_nodup E hE key item hkeyE, hp⟩
          have hdepkey : Depends E root key := Depends.step hchildroot Depends.base
          refine ⟨h1, new2 ++ new1, ?_, ?_, ?_, ?_, ?_⟩
          · rw [h2, hc2, List.append_assoc]
          · refine hnodup2.append hcnodup ?_
            intro a ha hb
            have hns1 := (hmem2 a ha).2.1
            rw [hc2] at hns1
            exact hns1 (List.mem_append.mpr (Or.inl hb))
          · intro k hk
            rcases List.mem_append.mp hk with hk2 | hk1
            · obtain ⟨hd, hns, hs⟩ := hmem2 k hk2
              refine ⟨hd, ?_, hs⟩
              intro hkns
              rw [hc2] at hns
              exact hns (List.mem_append.mpr (Or.inr hkns))
            · obtain ⟨hd, hns, hs⟩ := hcmem k hk1
              exact ⟨dependsTrans hdepkey hd, hns, hs⟩
          · intro q hq hqns d hd
            by_cases hqn1 : q ∈ ns1
            · have hd1 : d ∈ ns1 := hcclosed q hqn1 hqns d hd
              rw [h2]
              exact List.mem_append.mpr (Or.inr hd1)
            · exact hclosed2 q hq hqn1 d hd
          · intro c it hmem hpar
            rcases List.mem_cons.mp hmem with heq | hmem'
            · injection heq with hceq hit
              subst hceq
              subst hit
              rw [h2]
              refine List.mem_append.mpr (Or.inr ?_)
              rw [hc2]
              exact List.mem_append.mpr (Or.inl hckey)
            · exact hrest2 c it hmem' hpar
      · simp only [delScan, hp, if_neg hpr] at h
        obtain ⟨h1, new, h2, h3, h4, h5, h6⟩ := ih hsub' ns out h
        refine ⟨h1, new, h2, h3, h4, h5, ?_⟩
        intro c it hmem hpar
        rcases List.mem_cons.mp hmem with heq | hmem'
        · injection heq with hc hit
          subst hc
          subst hit
          rw [hp] at hpar
          injection hpar with hpar
          exact absurd hpar hpr
        · exact h6 c it hmem' hpar

theorem del_master (E : List (String × IconSetIconEntry)) (hE : keysNodup E) :
    ∀ (fuel : Nat) (isTop : Bool) (root : String) (ns : List String) (out : DelState),
      del .cascade fuel isTop root (E, ns) = some out →
      out.1 = E ∧ ∃ new, out.2 = new ++ ns ∧ root ∈ new ∧ new.Nodup ∧
        (∀ k ∈ new, Depends E root k ∧ k ∉ ns ∧ (lookupKey E k).isSome = true) ∧
        (∀ p ∈ out.2, p ∉ ns → ∀ d, childOf E d p → d ∈ out.2) := by
  intro fuel
  induction fuel with
  | zero =>
    intro _ _ _ _ h
    exact absurd h (by simp [del])
  | succ fuel ih =>
    intro isTop root ns out h
    simp only [del] at h
    by_cases hg : ((lookupKey E root).isNone || ns.contains root) = true
    · rw [if_pos hg] at h
      exact Option.noConfusion h
    · rw [if_neg hg] at h
      simp only [Bool.or_eq_true, not_or] at hg
      obtain ⟨hg1, hg2⟩ := hg
      have hsome : (lookupKey E root).isSome = true := by
        cases hl : lookupKey E root with
        | none => rw [hl] at hg1; simp at hg1
        | some _ => simp
      have hroot_ns : root ∉ ns := fun hm => hg2 (List.elem_iff.mpr hm)
      obtain ⟨h1, new, h2, hnodup, hmem, hclosed, hkids⟩ :=
        delScan_master E hE root _ (fun c ns' out' hc => ih false c ns' out' hc)
          E (fun _ hx => hx) (root :: ns) out h
      refine ⟨h1, new ++ [root], ?_, ?_, ?_, ?_, ?_⟩
      · rw [h2]
        simp
      · simp
      · refine hnodup.append (List.nodup_singleton root) ?_
        intro a ha hb
        have := (hmem a ha).2.1
        rw [List.mem_singleton.mp hb] at this
        exact this (List.mem_cons_self _ _)
      · intro k hk
        rcases List.mem_append.mp hk with hknew | hkroot
        · obtain ⟨hd, hns, hs⟩ := hmem k hknew
          exact ⟨hd, fun hm => hns (List.mem_cons_of_mem _ hm), hs⟩
        · rw [List.mem_singleton.mp hkroot]
          exact ⟨Depends.base, hroot_ns, hsome⟩
      · intro q hq hqns d hd
        by_cases hqr : q = root
        · subst hqr
          obtain ⟨it, hlk, hpar⟩ := hd
          exact hkids d it (mem_of_lookupKey E d it hlk) hpar
        · refine hclosed q hq ?_ d hd
          intro hm
          rcases List.mem_cons.mp hm with h' | h'
          · exact hqr h'
          · exact hqns h'

theorem lookupKey_filter_true {β : Type} (p : String → Bool) :
    ∀ (l : List (String × β)) (k : String), p k = true →
      lookupKey (l.filter fun kv => p kv.1) k = lookupKey l k := by
  intro l
  induction l with
  | nil => intro k _; rfl
  | cons kv rest ih =>
    intro k hpk
    obtain ⟨k0, v0⟩ := kv
    by_cases he : k0 = k
    · subst he
      simp [List.filter_cons, hpk, lookupKey]
    · cases hpk0 : p k0 with
      | false => simp [List.filter_cons, hpk0, lookupKey, he, ih k hpk]
      | true => simp [List.filter_cons, hpk0, lookupKey, he, ih k hpk]

theorem lookupKey_filter_false {β : Type} (p : String → Bool) :
    ∀ (l : List (String × β)) (k : String), p k = false →
      lookupKey (l.filter fun kv => p kv.1) k = none := by
  intro l
  induction l with
  | nil => intro k _; rfl
  | cons kv rest ih =>
    intro k hpk
    obtain ⟨k0, v0⟩ := kv
    cases hpk0 : p k0 with
    | false => simp [List.filter_cons, hpk0, ih k hpk]
    | true =>
      have he : k0 ≠ k := fun hh => by rw [hh, hpk] at hpk0; exact Bool.noConfusion hpk0
      simp [List.filter_cons, hpk0, lookupKey, he, ih k hpk]

theorem length_filter_split {α : Type} (p : α → Bool) :
    ∀ l : List α, (l.filter p).length + (l.filter fun a => !(p a)).length = l.length := by
  intro l
  induction l with
  | nil => rfl
  | cons a l ih =>
    cases hpa : p a with
    | false => simp [List.filter_cons, hpa]; omega
    | true => simp [List.filter_cons, hpa]; omega

theorem filter_key_length {β : Type} (q : String → Bool) :
    ∀ (l : List (String × β)),
      (l.filter fun kv => q kv.1).length = ((l.map Prod.fst).filter q).length := by
  intro l
  induction l with
  | nil => rfl
  | cons kv rest ih =>
    cases hq : q kv.1 with
    | false => simp [List.filter_cons, hq, ih]
    | true => simp [List.filter_cons, hq, ih]

theorem count_keys_in {β : Type} (names : List String) (l : List (String × β))
    (hnd : keysNodup l) (hnn : names.Nodup)
    (hsub : ∀ x ∈ names, x ∈ l.map Prod.fst) :
    ((l.map Prod.fst).filter fun k => names.contains k).length = names.length := by
  have h1 : ((l.map Prod.fst).filter fun k => names.contains k).Nodup := hnd.filter _
  have hperm : List.Perm ((l.map Prod.fst).filter fun k => names.contains k) names := by
    rw [List.perm_ext_iff_of_nodup h1 hnn]
    intro a
    constructor
    · intro ha
      exact List.elem_iff.mp (List.mem_filter.mp ha).2
    · intro ha
      exact List.mem_filter.mpr ⟨hsub a ha, List.elem_iff.mpr ha⟩
  exact hperm.length_eq

theorem resolve_of_lookup_none (s : IconSet) (k : String)
    (h : lookupKey s.entries k = none) : resolve s k = none := by
  simp [resolve, maxIteration, getIcon, h]

/-- C4: cascading `remove` is all-or-nothing. When the recursive walk
fails — in particular whenever the 6-hop depth bound is hit — the
operation returns 0 with the entry store untouched; more generally a
cascading `remove` that returns 0 never changes the store. -/
theorem c4_remove_all_or_nothing (s : IconSet) (name : String) :
    (del .cascade (maxIteration + 1) true name (s.entries, []) = none →
      removeEntry s name .cascade = (0, s)) ∧
    ((removeEntry s name .cascade).1 = 0 → (removeEntry s name .cascade).2 = s) := by
  constructor
  · intro hd
    simp [removeEntry, hd]
  · intro h0
    cases hd : del .cascade (maxIteration + 1) true name (s.entries, []) with
    | none => simp [removeEntry, hd]
    | some st =>
      obtain ⟨e1, names⟩ := st
      exfalso
      have hm := (del_mono (maxIteration + 1) true name (s.entries, []) (e1, names) hd).2
      have hlen : (removeEntry s name .cascade).1 = names.length := by
        simp [removeEntry, hd]
      rw [hlen] at h0
      rw [List.length_eq_zero.mp h0] at hm
      cases hm

/-- Witness: removing `x` under a 7-deep dependent chain hits the depth
bound, and the operation returns `(0, unchanged store)`. -/
theorem c4_remove_all_or_nothing_witness :
    del .cascade (maxIteration + 1) true "x" (Sdeep.entries, []) = none ∧
    removeEntry Sdeep "x" .cascade = (0, Sdeep) :=
  ⟨by decide, (c4_remove_all_or_nothing Sdeep "x").1 (by decide)⟩

/-- C3: a successful cascading `remove(name, true)` deletes exactly the
entries whose parent chain transitively leads to `name` (including `name`
itself), returns their count, and afterwards both the store lookup and
`resolve` report every deleted entry as "not found", while every other
entry is untouched. -/
theorem c3_remove_cascade (s : IconSet) (name : String) (n : Nat) (s2 : IconSet)
    (hnd : keysNodup s.entries) (h : removeEntry s name .cascade = (n, s2))
    (hn : 0 < n) :
    (∀ k, Depends s.entries name k →
      lookupKey s2.entries k = none ∧ resolve s2 k = none) ∧
    (∀ k, ¬ Depends s.entries name k →
      lookupKey s2.entries k = lookupKey s.entries k) ∧
    n + s2.entries.length = s.entries.length := by
  cases hd : del .cascade (maxIteration + 1) true name (s.entries, []) with
  | none =>
    rw [show removeEntry s name .cascade = (0, s) by simp [removeEntry, hd]] at h
    injection h with h1 _
    omega
  | some st =>
    obtain ⟨e1, names⟩ := st
    have hrem : removeEntry s name .cascade =
        (names.length, { s with entries := e1.filter fun kv => !(names.contains kv.1) }) := by
      simp [removeEntry, hd]
    rw [hrem] at h
    injection h with h1 h2
    obtain ⟨hE1, new, hnew, hrootnew, hnodup, hmem, hclosed⟩ :=
      del_master s.entries hnd (maxIteration + 1) true name [] (e1, names) hd
    replace hE1 : e1 = s.entries := hE1
    subst hE1
    replace hnew : names = new ++ [] := hnew
    rw [List.append_nil] at hnew
    subst hnew
    have hs2 : s2.entries = s.entries.filter fun kv => !(names.contains kv.1) := by
      rw [← h2]
    have hcomplete : ∀ k, Depends s.entries name k → k ∈ names := by
      intro k hdep
      induction hdep with
      | base => exact hrootnew
      | step hc _ ih =>
        exact hclosed _ ih (fun hx => (List.not_mem_nil _) hx) _ hc
    have hsound : ∀ k ∈ names, Depends s.entries name k := fun k hk => (hmem k hk).1
    refine ⟨?_, ?_, ?_⟩
    · intro k hdep
      have hk : k ∈ names := hcomplete k hdep
      have hck : names.contains k = true := List.elem_iff.mpr hk
      have hpk : (!(names.contains k)) = false := by rw [hck]; rfl
      have hlk : lookupKey s2.entries k = none := by
        rw [hs2]
        exact lookupKey_filter_false (fun x => !(names.contains x)) s.entries k hpk
      exact ⟨hlk, resolve_of_lookup_none s2 k hlk⟩
    · intro k hdep
      have hk : k ∉ names := fun hm => hdep (hsound k hm)
      have hck : names.contains k = false := by
        cases hc : names.contains k with
        | false => rfl
        | true => exact absurd (List.elem_iff.mp hc) hk
      have hpk : (!(names.contains k)) = true := by rw [hck]; rfl
      rw [hs2]
      exact lookupKey_filter_true (fun x => !(names.contains x)) s.entries k hpk
    · have hsubkeys : ∀ x ∈ names, x ∈ s.entries.map Prod.fst := by
        intro x hx
        obtain ⟨v, hv⟩ := exists_of_lookupKey_isSome s.entries x (hmem x hx).2.2
        exact List.mem_map.mpr ⟨(x, v), hv, rfl⟩
      have hsplit := length_filter_split (fun kv : String × IconSetIconEntry =>
        names.contains kv.1) s.entries
      have hcount : (s.entries.filter fun kv => names.contains kv.1).length =
          names.length := by
        rw [filter_key_length]
        exact count_keys_in names s.entries hnd hnodup hsubkeys
      rw [hs2, ← h1]
      omega

/-- Witness for the cascading-removal contract on a concrete store. -/
theorem c3_remove_cascade_witness :
    keysNodup Sc3.entries ∧ 0 < 3 ∧
    ((∀ k, Depends Sc3.entries "x" k →
        lookupKey Sc3After.entries k = none ∧ resolve Sc3After k = none) ∧
     (∀ k, ¬ Depends Sc3.entries "x" k →
        lookupKey Sc3After.entries k = lookupKey Sc3.entries k) ∧
     3 + Sc3After.entries.length = Sc3.entries.length) :=
  ⟨by decide, by decide,
    c3_remove_cascade Sc3 "x" 3 Sc3After (by decide) (by decide) (by decide)⟩

theorem removeEntry_cascade_zero_unchanged (s : IconSet) (name : String)
    (h0 : (removeEntry s name .cascade).1 = 0) :
    (removeEntry s name .cascade).2 = s := by
  cases hd : del .cascade (maxIteration + 1) true name (s.entries, []) with
  | none => simp [removeEntry, hd]
  | some st =>
    obtain ⟨e1, names⟩ := st
    exfalso
    have hm := (del_mono (maxIteration + 1) true name (s.entries, []) (e1, names) hd).2
    have hlen : (removeEntry s name .cascade).1 = names.length := by
      simp [removeEntry, hd]
    rw [hlen] at h0
    rw [List.length_eq_zero.mp h0] at hm
    cases hm

/-- C5 (amended): `rename(oldName, newName)` with `newName` occupied
first removes the occupant with the cascading policy. If that removal
fails the rename returns `false` with the store unchanged, and a missing
`oldName` with `newName` unoccupied is also a clean no-op; but when the
occupant's removal succeeds and `oldName` is then absent, the rename
still returns `false` while the occupant (and its dependents) stay
removed — a partial effect. -/
theorem c5_rename_failure (s : IconSet) (oldName newName : String) :
    ((lookupKey s.entries newName).isSome = true →
      (removeEntry s newName .cascade).1 = 0 →
      renameEntry s oldName newName = (false, s)) ∧
    ((lookupKey s.entries newName).isSome = true →
      ∀ (n : Nat) (s1 : IconSet), removeEntry s newName .cascade = (n, s1) → 0 < n →
        lookupKey s1.entries oldName = none →
        renameEntry s oldName newName = (false, s1)) ∧
    ((lookupKey s.entries newName).isSome = false →
      lookupKey s.entries oldName = none →
      renameEntry s oldName newName = (false, s)) := by
  refine ⟨?_, ?_, ?_⟩
  · intro hocc h0
    have hunch := removeEntry_cascade_zero_unchanged s newName h0
    have hre : removeEntry s newName .cascade = (0, s) := Prod.ext h0 hunch
    simp [renameEntry, hocc, hre]
  · intro hocc n s1 hrem hn hold
    cases n with
    | zero => omega
    | succ m => simp [renameEntry, hocc, hrem, renameCore, hold]
  · intro hocc hold
    simp [renameEntry, hocc, renameCore, hold]

/-- Witness: renaming onto an occupant whose cascading removal fails is a
clean failure. -/
theorem c5_rename_failure_witness :
    (lookupKey Sdeep.entries "x").isSome = true ∧
    (removeEntry Sdeep "x" .cascade).1 = 0 ∧
    renameEntry Sdeep "nope" "x" = (false, Sdeep) :=
  ⟨by decide, by decide, (c5_rename_failure Sdeep "nope" "x").1 (by decide) (by decide)⟩

/-- C5 (counterexample): in `Sc5` (`b` an icon, `a` its alias),
`rename("a", "b")` first cascade-removes the occupant `b` — deleting both
`b` and its dependent `a` — and then fails because `a` no longer exists.
The rename returns `false`, yet the store has been emptied: a partial
effect, contradicting the claimed atomicity. -/
theorem c5_counterexample :
    (renameEntry Sc5 "a" "b").1 = false ∧
    (renameEntry Sc5 "a" "b").2.entries = [] ∧ Sc5.entries ≠ [] := by
  exact ⟨by decide, by decide, by decide⟩

/-- C6 (amended): an explicit `prefixes`/`suffixes` field replaces the
theme table wholesale — the table is reset to a fresh object before the
explicit entries are copied in, so legacy-derived entries survive only
when the corresponding explicit field is absent. -/
theorem c6_theme_tables (data : IconifyJSONData) :
    (∀ items, data.prefixes = some items → (load data).prefixes = copyTable items) ∧
    (data.prefixes = none →
      (load data).prefixes =
        (match data.themes with
         | some th => (legacyTables th).1
         | none => [])) ∧
    (∀ items, data.suffixes = some items → (load data).suffixes = copyTable items) ∧
    (data.suffixes = none →
      (load data).suffixes =
        (match data.themes with
         | some th => (legacyTables th).2
         | none => [])) := by
  refine ⟨?_, ?_, ?_, ?_⟩
  · intro items h
    simp [load, h]
  · intro h
    cases hth : data.themes with
    | none => simp [load, h, hth]
    | some th => simp [load, h, hth]
  · intro items h
    simp [load, h]
  · intro h
    cases hth : data.themes with
    | none => simp [load, h, hth]
    | some th => simp [load, h, hth]

/-- Witness: the theme-table replacement applied to the concrete
document. -/
theorem c6_theme_tables_witness :
    C6doc.prefixes = some [("b", "B")] ∧
    (load C6doc).prefixes = copyTable [("b", "B")] :=
  ⟨rfl, (c6_theme_tables C6doc).1 [("b", "B")] rfl⟩

/-- C6 (counterexample): `C6doc` declares a legacy theme with prefix
`a-` (which alone would yield the table entry `a → A`) together with an
explicit `prefixes` field that does not mention `a`; after `load` the
key `a` is gone, so the legacy-derived entry was not preserved. -/
theorem c6_counterexample :
    (legacyTables [("t1", ⟨some "a-", none, "A"⟩)]).1 = [("a", "A")] ∧
    (load C6doc).prefixes = [("b", "B")] ∧
    lookupKey (load C6doc).prefixes "a" = none := by
  exact ⟨by decide, by decide, by decide⟩

theorem findCategory_title (s : IconSet) (title : String) (add : Bool)
    (c : IconCategory) (h : (findCategory s title add).1 = some c) :
    c.title = title := by
  unfold findCategory at h
  cases hf : s.categories.find? (fun c => c.title = title) with
  | some c0 =>
    rw [hf] at h
    injection h with h
    subst h
    have := List.find?_some hf
    simpa using this
  | none =>
    rw [hf] at h
    cases add with
    | false => exact Option.noConfusion h
    | true =>
      injection h with h
      subst h
      rfl

theorem findCategory_not_add (s : IconSet) (title : String) :
    (findCategory s title false).2 = s := by
  unfold findCategory
  cases hf : s.categories.find? (fun c => c.title = title) <;> simp

/-- C8 (amended): when `toggleCategory` fails it leaves the store exactly
as `findCategory(title, add)` left it — so with `add` set, a category
created by that preliminary lookup persists even though the toggle
reports failure (and with `add` unset a failure is a complete no-op). It
returns `true` exactly when the entry exists as an `Icon`, `findCategory`
returns a record, and the icon's identity membership of that very record
differs from the requested state; it then adjusts that record's count in
the Category Index by `+1`/`-1`. Membership is record identity, not
title: on the loaded stale-reference store — hidden `h` still holding the
pruned record for `C` — adding `C` to `h` again succeeds, because
`findCategory` creates a fresh record the icon does not hold; `h` ends up
holding two records titled `C` and the index holds the new one with
count 1. -/
theorem c8_toggleCategory (s : IconSet) (iconName title : String) (add : Bool) :
    ((toggleCategory s iconName title add).1 = false →
      (toggleCategory s iconName title add).2 = (findCategory s title add).2) ∧
    (add = false → (toggleCategory s iconName title add).1 = false →
      (toggleCategory s iconName title add).2 = s) ∧
    ((toggleCategory s iconName title add).1 = true ↔
      ∃ b p ch cats cat, lookupKey s.entries iconName = some (.icon b p ch cats) ∧
        (findCategory s title add).1 = some cat ∧ hasCatId cats cat.id ≠ add) ∧
    (∀ b p ch cats cat, lookupKey s.entries iconName = some (.icon b p ch cats) →
      (findCategory s title add).1 = some cat → hasCatId cats cat.id ≠ add →
      (toggleCategory s iconName title add).2.categories =
        bumpCount (findCategory s title add).2.categories cat.id
          (if add then 1 else -1)) ∧
    (toggleCategory (load C8doc) "h" "C" true).1 = true ∧
    (toggleCategory (load C8doc) "h" "C" true).2.categories = [⟨1, "C", 1⟩] ∧
    lookupKey (toggleCategory (load C8doc) "h" "C" true).2.entries "h" =
      some (.icon "x" { noProps with hidden := some true } []
        [⟨0, "C", 0⟩, ⟨1, "C", 0⟩]) := by
  have main :
      ((toggleCategory s iconName title add).1 = false →
        (toggleCategory s iconName title add).2 = (findCategory s title add).2) ∧
      ((toggleCategory s iconName title add).1 = true ↔
        ∃ b p ch cats cat, lookupKey s.entries iconName = some (.icon b p ch cats) ∧
          (findCategory s title add).1 = some cat ∧ hasCatId cats cat.id ≠ add) ∧
      (∀ b p ch cats cat, lookupKey s.entries iconName = some (.icon b p ch cats) →
        (findCategory s title add).1 = some cat → hasCatId cats cat.id ≠ add →
        (toggleCategory s iconName title add).2.categories =
          bumpCount (findCategory s title add).2.categories cat.id
            (if add then 1 else -1)) := by
    cases hi : lookupKey s.entries iconName with
    | none =>
      have ht : toggleCategory s iconName title add = (false, (findCategory s title add).2) := by
        cases hf : (findCategory s title add).1 with
        | none => simp only [toggleCategory, hi, hf]
        | some cat => simp only [toggleCategory, hi, hf]
      refine ⟨fun _ => by rw [ht], ?_, ?_⟩
      · constructor
        · intro h
          rw [ht] at h
          exact Bool.noConfusion h
        · rintro ⟨b, p, ch, cats, cat, hlk, -, -⟩
          exact Option.noConfusion hlk
      · intro b p ch cats cat hlk _ _
        exact absurd hlk Option.noConfusion
    | some item =>
      cases hf : (findCategory s title add).1 with
      | none =>
        have ht : toggleCategory s iconName title add =
            (false, (findCategory s title add).2) := by
          cases item with
          | icon b p ch cats => simp only [toggleCategory, hi, hf]
          | aliasEntry pa ch => simp only [toggleCategory, hi, hf]
          | variation pa pr ch => simp only [toggleCategory, hi, hf]
        refine ⟨fun _ => by rw [ht], ?_, ?_⟩
        · constructor
          · intro h
            rw [ht] at h
            exact Bool.noConfusion h
          · rintro ⟨b, p, ch, cats, cat, -, hsome, -⟩
            exact Option.noConfusion hsome
        · intro b p ch cats cat _ hsome _
          exact absurd hsome Option.noConfusion
      | some cat =>
        cases item with
        | icon b p ch cats =>
          by_cases hcond : hasCatId cats cat.id ≠ add
          · have ht : toggleCategory s iconName title add =
                (true,
                  { ({ (findCategory s title add).2 with
                        categories :=
                          bumpCount (findCategory s title add).2.categories cat.id
                            (if add then 1 else -1) }) with
                      entries :=
                        setKey
                          ({ (findCategory s title add).2 with
                              categories :=
                                bumpCount (findCategory s title add).2.categories cat.id
                                  (if add then 1 else -1) }).entries
                          iconName
                          (.icon b p ch
                            (if add then addCatRecord cats cat
                              else removeCatId cats cat.id)) }) := by
              simp only [toggleCategory, hi, hf]
              rw [if_pos hcond]
            refine ⟨?_, ?_, ?_⟩
            · intro h
              rw [ht] at h
              exact Bool.noConfusion h
            · constructor
              · intro _
                exact ⟨b, p, ch, cats, cat, rfl, rfl, hcond⟩
              · intro _
                rw [ht]
            · intro b2 p2 ch2 cats2 cat2 hlk hfc _
              injection hfc with hfc
              subst hfc
              rw [ht]
          · have ht : toggleCategory s iconName title add =
                (false, (findCategory s title add).2) := by
              simp only [toggleCategory, hi, hf]
              rw [if_neg hcond]
            refine ⟨fun _ => by rw [ht], ?_, ?_⟩
            · constructor
              · intro h
                rw [ht] at h
                exact Bool.noConfusion h
              · rintro ⟨b2, p2, ch2, cats2, cat2, hlk, hfc, hcond2⟩
                injection hlk with hlk
                injection hlk with h1 h2 h3 h4
                injection hfc with hfc
                subst h4
                subst hfc
                exact absurd hcond2 hcond
            · intro b2 p2 ch2 cats2 cat2 hlk hfc hcond2
              injection hlk with hlk
              injection hlk with h1 h2 h3 h4
              injection hfc with hfc
              subst h4
              subst hfc
              exact absurd hcond2 hcond
        | aliasEntry pa ch =>
          have ht : toggleCategory s iconName title add =
              (false, (findCategory s title add).2) := by
            simp only [toggleCategory, hi, hf]
          refine ⟨fun _ => by rw [ht], ?_, ?_⟩
          · constructor
            · intro h
              rw [ht] at h
              exact Bool.noConfusion h
            · rintro ⟨b, p, ch2, cats, cat2, hlk, -, -⟩
              injection hlk with hlk
              exact IconSetIconEntry.noConfusion hlk
          · intro b p ch2 cats cat2 hlk _ _
            injection hlk with hlk
            exact IconSetIconEntry.noConfusion hlk
        | variation pa pr ch =>
          have ht : toggleCategory s iconName title add =
              (false, (findCategory s title add).2) := by
            simp only [toggleCategory, hi, hf]
          refine ⟨fun _ => by rw [ht], ?_, ?_⟩
          · constructor
            · intro h
              rw [ht] at h
              exact Bool.noConfusion h
            · rintro ⟨b, p, ch2, cats, cat2, hlk, -, -⟩
              injection hlk with hlk
              exact IconSetIconEntry.noConfusion hlk
          · intro b p ch2 cats cat2 hlk _ _
            injection hlk with hlk
            exact IconSetIconEntry.noConfusion hlk
  refine ⟨main.1, ?_, main.2.1, main.2.2, by decide, by decide, by decide⟩
  intro hadd hfalse
  rw [main.1 hfalse, hadd, findCategory_not_add]

/-- Witness: a failing toggle leaves exactly the `findCategory` effect. -/
theorem c8_toggleCategory_witness :
    (toggleCategory Sc8 "x" "C" true).1 = false ∧
    (toggleCategory Sc8 "x" "C" true).2 = (findCategory Sc8 "C" true).2 :=
  ⟨by decide, (c8_toggleCategory Sc8 "x" "C" true).1 (by decide)⟩

/-- C8 (counterexample): on the empty store, `toggleCategory("x", "C",
true)` returns `false` (the entry `x` is absent), yet the Category Index
has changed: `findCategory`'s creation of `C` persists. -/
theorem c8_counterexample :
    (toggleCategory Sc8 "x" "C" true).1 = false ∧
    (toggleCategory Sc8 "x" "C" true).2 ≠ Sc8 ∧
    (toggleCategory Sc8 "x" "C" true).2.categories = [⟨0, "C", 0⟩] := by
  exact ⟨by decide, by decide, by decide⟩

theorem pushBucket_mem (valid : List (String × List String)) (k0 nm k : String)
    (b2 : List String) :
    (k, b2) ∈ pushBucket valid k0 nm ↔
      ∃ b, (k, b) ∈ valid ∧ b2 = (if k = k0 then b ++ [nm] else b) := by
  unfold pushBucket
  rw [List.mem_map]
  constructor
  · rintro ⟨kv, hm, hf⟩
    by_cases hk : kv.1 = k0
    · rw [if_pos hk] at hf
      injection hf with h1 h2
      refine ⟨kv.2, ?_, ?_⟩
      · rw [← h1]
        exact hm
      · rw [if_pos (h1 ▸ hk), ← h2]
    · rw [if_neg hk] at hf
      have h1 : kv.1 = k := by rw [hf]
      have h2 : kv.2 = b2 := by rw [hf]
      refine ⟨kv.2, ?_, ?_⟩
      · rw [← h1]
        exact hm
      · rw [if_neg (h1 ▸ hk), ← h2]
  · rintro ⟨b, hm, hb⟩
    refine ⟨(k, b), hm, ?_⟩
    by_cases hk : k = k0
    · rw [if_pos hk] at hb
      show (if k = k0 then (k, b ++ [nm]) else (k, b)) = (k, b2)
      rw [if_pos hk, hb]
    · rw [if_neg hk] at hb
      show (if k = k0 then (k, b ++ [nm]) else (k, b)) = (k, b2)
      rw [if_neg hk, hb]

theorem themeFold_invalid (E : List (String × IconSetIconEntry)) (pfx : Bool)
    (keys : List String) :
    ∀ (l : List (String × IconSetIconEntry)) (st : CheckThemeResult) (name : String),
      name ∈ (l.foldl (themeStep E pfx keys) st).invalid ↔
        name ∈ st.invalid ∨
          ∃ kv ∈ l, kv.1 = name ∧ themeVisible E kv = true ∧
            keys.find? (fun k => matchesThemeKey pfx k name) = none := by
  intro l
  induction l with
  | nil =>
    intro st name
    simp
  | cons kv l ih =>
    intro st name
    rw [List.foldl_cons, ih]
    cases hv : themeVisible E kv with
    | false =>
      have hstep : themeStep E pfx keys st kv = st := by simp [themeStep, hv]
      rw [hstep]
      constructor
      · rintro (h | ⟨kv2, hm, rest⟩)
        · exact Or.inl h
        · exact Or.inr ⟨kv2, List.mem_cons_of_mem _ hm, rest⟩
      · rintro (h | ⟨kv2, hm, h1, h2, h3⟩)
        · exact Or.inl h
        · rcases List.mem_cons.mp hm with heq | hm2
          · subst heq
            rw [hv] at h2
            exact Bool.noConfusion h2
          · exact Or.inr ⟨kv2, hm2, h1, h2, h3⟩
    | true =>
      cases hfind : keys.find? (fun k => matchesThemeKey pfx k kv.1) with
      | some k0 =>
        have hstep : themeStep E pfx keys st kv =
            { st with valid := pushBucket st.valid k0 kv.1 } := by
          simp [themeStep, hv, hfind]
        rw [hstep]
        constructor
        · rintro (h | ⟨kv2, hm, rest⟩)
          · exact Or.inl h
          · exact Or.inr ⟨kv2, List.mem_cons_of_mem _ hm, rest⟩
        · rintro (h | ⟨kv2, hm, h1, h2, h3⟩)
          · exact Or.inl h
          · rcases List.mem_cons.mp hm with heq | hm2
            · subst heq
              rw [h1] at hfind
              rw [hfind] at h3
              exact Option.noConfusion h3
            · exact Or.inr ⟨kv2, hm2, h1, h2, h3⟩
      | none =>
        have hstep : themeStep E pfx keys st kv =
            { st with invalid := st.invalid ++ [kv.1] } := by
          simp [themeStep, hv, hfind]
        rw [hstep]
        constructor
        · rintro (h | ⟨kv2, hm, rest⟩)
          · rcases List.mem_append.mp h with h | h
            · exact Or.inl h
            · refine Or.inr ⟨kv, List.mem_cons_self _ _, ?_, hv, ?_⟩
              · exact (List.mem_singleton.mp h).symm
              · rw [(List.mem_singleton.mp h)]
                exact hfind
          · exact Or.inr ⟨kv2, List.mem_cons_of_mem _ hm, rest⟩
        · rintro (h | ⟨kv2, hm, h1, h2, h3⟩)
          · exact Or.inl (List.mem_append.mpr (Or.inl h))
          · rcases List.mem_cons.mp hm with heq | hm2
            · subst heq
              refine Or.inl (List.mem_append.mpr (Or.inr ?_))
              rw [List.mem_singleton, h1]
            · exact Or.inr ⟨kv2, hm2, h1, h2, h3⟩

theorem themeFold_valid (E : List (String × IconSetIconEntry)) (pfx : Bool)
    (keys : List String) :
    ∀ (l : List (String × IconSetIconEntry)) (st : CheckThemeResult),
      (∀ x ∈ l, x ∈ E) →
      (∀ k bucket name, (k, bucket) ∈ st.valid → name ∈ bucket →
        (∃ kv ∈ E, kv.1 = name ∧ themeVisible E kv = true) ∧
        keys.find? (fun key => matchesThemeKey pfx key name) = some k) →
      ∀ k bucket name, (k, bucket) ∈ (l.foldl (themeStep E pfx keys) st).valid →
        name ∈ bucket →
        (∃ kv ∈ E, kv.1 = name ∧ themeVisible E kv = true) ∧
        keys.find? (fun key => matchesThemeKey pfx key name) = some k := by
  intro l
  induction l with
  | nil =>
    intro st _ hinv k bucket name hm hb
    exact hinv k bucket name hm hb
  | cons kv l ih =>
    intro st hsub hinv
    rw [List.foldl_cons]
    refine ih (themeStep E pfx keys st kv) (fun x hx => hsub x (List.mem_cons_of_mem _ hx)) ?_
    intro k bucket name hm hb
    cases hv : themeVisible E kv with
    | false =>
      have hstep : themeStep E pfx keys st kv = st := by simp [themeStep, hv]
      rw [hstep] at hm
      exact hinv k bucket name hm hb
    | true =>
      cases hfind : keys.find? (fun key => matchesThemeKey pfx key kv.1) with
      | none =>
        have hstep : themeStep E pfx keys st kv =
            { st with invalid := st.invalid ++ [kv.1] } := by
          simp [themeStep, hv, hfind]
        rw [hstep] at hm
        exact hinv k bucket name hm hb
      | some k0 =>
        have hstep : themeStep E pfx keys st kv =
            { st with valid := pushBucket st.valid k0 kv.1 } := by
          simp [themeStep, hv, hfind]
        rw [hstep] at hm
        obtain ⟨b, hmb, hbdef⟩ := (pushBucket_mem st.valid k0 kv.1 k bucket).mp hm
        by_cases hk : k = k0
        · rw [if_pos hk] at hbdef
          rw [hbdef] at hb
          rcases List.mem_append.mp hb with hbin | hbnew
          · exact hinv k b name hmb hbin
          · have hname : name = kv.1 := List.mem_singleton.mp hbnew
            refine ⟨⟨kv, hsub kv (List.mem_cons_self _ _), hname.symm, hv⟩, ?_⟩
            rw [hname, hk]
            exact hfind
        · rw [if_neg hk] at hbdef
          rw [hbdef] at hb
          exact hinv k b name hmb hb

/-- C9: `sortThemeKeys` orders theme keys by descending length with ties
broken lexicographically (a permutation of the input, sorted by that
order, so the empty catch-all key — which matches every name — comes
last); `checkTheme` puts a name in the invalid list exactly when it is
visible and no sorted key matches it, and whenever a name sits in a key's
bucket, that key is the first key of the sorted list matching the name. -/
theorem c9_checkTheme :
    (∀ ks : List String, List.Perm (sortThemeKeys ks) ks ∧
      (sortThemeKeys ks).Sorted themeKeyOrder) ∧
    (∀ (pfx : Bool) (name : String), matchesThemeKey pfx "" name = true) ∧
    (∀ (s : IconSet) (pfx : Bool) (name : String),
      name ∈ (checkTheme s pfx).invalid ↔
        ((∃ kv ∈ s.entries, kv.1 = name ∧ themeVisible s.entries kv = true) ∧
         ∀ k ∈ sortThemeKeys ((if pfx then s.prefixes else s.suffixes).map Prod.fst),
           matchesThemeKey pfx k name = false)) ∧
    (∀ (s : IconSet) (pfx : Bool) (k : String) (bucket : List String) (name : String),
      (k, bucket) ∈ (checkTheme s pfx).valid → name ∈ bucket →
        (∃ kv ∈ s.entries, kv.1 = name ∧ themeVisible s.entries kv = true) ∧
        (sortThemeKeys ((if pfx then s.prefixes else s.suffixes).map Prod.fst)).find?
          (fun key => matchesThemeKey pfx key name) = some k) := by
  refine ⟨?_, ?_, ?_, ?_⟩
  · intro ks
    exact ⟨List.perm_insertionSort themeKeyOrder ks,
      List.sorted_insertionSort themeKeyOrder ks⟩
  · intro pfx name
    rfl
  · intro s pfx name
    have h := themeFold_invalid s.entries pfx
      (sortThemeKeys ((if pfx then s.prefixes else s.suffixes).map Prod.fst))
      s.entries
      { valid := (sortThemeKeys ((if pfx then s.prefixes else s.suffixes).map Prod.fst)).map
          fun k => (k, []), invalid := [] } name
    rw [show (checkTheme s pfx) =
        s.entries.foldl (themeStep s.entries pfx
          (sortThemeKeys ((if pfx then s.prefixes else s.suffixes).map Prod.fst)))
          { valid := (sortThemeKeys ((if pfx then s.prefixes else s.suffixes).map
              Prod.fst)).map fun k => (k, []), invalid := [] } from rfl]
    rw [h]
    simp only [List.not_mem_nil, false_or]
    constructor
    · rintro ⟨kv, hm, h1, h2, h3⟩
      refine ⟨⟨kv, hm, h1, h2⟩, ?_⟩
      intro k hk
      have := List.find?_eq_none.mp h3 k hk
      cases hmk : matchesThemeKey pfx k name with
      | false => rfl
      | true => exact absurd hmk this
    · rintro ⟨⟨kv, hm, h1, h2⟩, hall⟩
      refine ⟨kv, hm, h1, h2, ?_⟩
      rw [List.find?_eq_none]
      intro k hk hmk
      rw [hall k hk] at hmk
      exact Bool.noConfusion hmk
  · intro s pfx k bucket name hm hb
    refine themeFold_valid s.entries pfx
      (sortThemeKeys ((if pfx then s.prefixes else s.suffixes).map Prod.fst))
      s.entries _ (fun x hx => hx) ?_ k bucket name hm hb
    intro k2 bucket2 name2 hm2 hb2
    simp only [List.mem_map] at hm2
    obtain ⟨k3, _, heq⟩ := hm2
    injection heq with _ hbe
    rw [← hbe] at hb2
    cases hb2

/-- Witness: the bucket soundness applied to the concrete themed store. -/
theorem c9_checkTheme_witness :
    (∃ kv ∈ Sc9.entries, kv.1 = "mdi-home" ∧ themeVisible Sc9.entries kv = true) ∧
    (sortThemeKeys ((if true then Sc9.prefixes else Sc9.suffixes).map Prod.fst)).find?
      (fun key => matchesThemeKey true key "mdi-home") = some "mdi" :=
  c9_checkTheme.2.2.2 Sc9 true "mdi" ["mdi-home"] "mdi-home" (by decide) (by decide)

theorem lookupKey_setKey_self {β : Type} :
    ∀ (l : List (String × β)) (k : String) (v : β),
      lookupKey (setKey l k v) k = some v := by
  intro l
  induction l with
  | nil =>
    intro k v
    simp [setKey, lookupKey]
  | cons kv rest ih =>
    intro k v
    obtain ⟨k0, w⟩ := kv
    by_cases he : k0 = k
    · simp [setKey, he, lookupKey]
    · simp [setKey, he, lookupKey, ih]

theorem lookupKey_setKey_ne {β : Type} :
    ∀ (l : List (String × β)) (k k2 : String) (v : β), k2 ≠ k →
      lookupKey (setKey l k v) k2 = lookupKey l k2 := by
  intro l
  induction l with
  | nil =>
    intro k k2 v hne
    have hkk : ¬ (k = k2) := fun h => hne h.symm
    simp [setKey, lookupKey, hkk]
  | cons kv rest ih =>
    intro k k2 v hne
    obtain ⟨k0, w⟩ := kv
    by_cases he : k0 = k
    · subst he
      have : ¬ (k0 = k2) := fun h => hne (h.symm)
      simp [setKey, lookupKey, this]
    · by_cases he2 : k0 = k2
      · simp [setKey, he, lookupKey, he2, hne]
      · simp [setKey, he, lookupKey, he2, ih k k2 v hne]

theorem exists_mem_of_ne_nil {α : Type} (l : List α) (h : l ≠ []) : ∃ x, x ∈ l := by
  cases l with
  | nil => exact absurd rfl h
  | cons a rest => exact ⟨a, List.mem_cons_self a rest⟩

theorem forall2_mem_left {α β : Type} {R : α → β → Prop} :
    ∀ {l1 : List α} {l2 : List β}, List.Forall₂ R l1 l2 →
      ∀ x ∈ l1, ∃ y ∈ l2, R x y := by
  intro l1 l2 h
  induction h with
  | nil => intro x hx; cases hx
  | cons hr _ ih =>
    intro x hx
    rcases List.mem_cons.mp hx with heq | hmem
    · subst heq
      exact ⟨_, List.mem_cons_self _ _, hr⟩
    · obtain ⟨y, hy, hxy⟩ := ih x hmem
      exact ⟨y, List.mem_cons_of_mem _ hy, hxy⟩

theorem forall2_mem_right {α β : Type} {R : α → β → Prop} :
    ∀ {l1 : List α} {l2 : List β}, List.Forall₂ R l1 l2 →
      ∀ y ∈ l2, ∃ x ∈ l1, R x y := by
  intro l1 l2 h
  induction h with
  | nil => intro y hy; cases hy
  | cons hr _ ih =>
    intro y hy
    rcases List.mem_cons.mp hy with heq | hmem
    · subst heq
      exact ⟨_, List.mem_cons_self _ _, hr⟩
    · obtain ⟨x, hx, hxy⟩ := ih y hmem
      exact ⟨x, List.mem_cons_of_mem _ hx, hxy⟩

theorem mem_filterEntriesAux (R : List (String × IconSetIconEntry))
    (q : IconProps → List IconCategory → Bool) :
    ∀ (l : List (String × IconSetIconEntry)) (x : String),
      (x ∈ filterEntriesAux R
          (fun _ item _ =>
            match item with
            | .icon _ props _ cats => q props cats
            | _ => false) l) ↔
        ∃ kv ∈ l, kv.1 = x ∧ ∃ b p ch cs, kv.2 = IconSetIconEntry.icon b p ch cs ∧
          q p cs = true := by
  intro l
  induction l with
  | nil =>
    intro x
    simp [filterEntriesAux]
  | cons kv rest ih =>
    intro x
    obtain ⟨key, item⟩ := kv
    cases item with
    | icon b p ch cs =>
      by_cases hcb : q p cs = true
      · have hstep : filterEntriesAux R
            (fun _ item _ =>
              match item with
              | .icon _ props _ cats => q props cats
              | _ => false) ((key, .icon b p ch cs) :: rest) =
            key :: filterEntriesAux R
              (fun _ item _ =>
                match item with
                | .icon _ props _ cats => q props cats
                | _ => false) rest := by
          simp only [filterEntriesAux]
          rw [if_pos hcb]
        rw [hstep]
        constructor
        · intro hx
          rcases List.mem_cons.mp hx with heq | hmem
          · exact ⟨(key, .icon b p ch cs), List.mem_cons_self _ _, heq.symm,
              b, p, ch, cs, rfl, hcb⟩
          · obtain ⟨kv2, hm, h1, rest2⟩ := (ih x).mp hmem
            exact ⟨kv2, List.mem_cons_of_mem _ hm, h1, rest2⟩
        · rintro ⟨kv2, hm, h1, b2, p2, ch2, cs2, h2, h3⟩
          rcases List.mem_cons.mp hm with heq | hmem
          · subst heq
            replace h1 : key = x := h1
            subst h1
            exact List.mem_cons_self _ _
          · exact List.mem_cons_of_mem _ ((ih x).mpr ⟨kv2, hmem, h1, b2, p2, ch2, cs2, h2, h3⟩)
      · have hstep : filterEntriesAux R
            (fun _ item _ =>
              match item with
              | .icon _ props _ cats => q props cats
              | _ => false) ((key, .icon b p ch cs) :: rest) =
            filterEntriesAux R
              (fun _ item _ =>
                match item with
                | .icon _ props _ cats => q props cats
                | _ => false) rest := by
          simp only [filterEntriesAux]
          rw [if_neg hcb]
        rw [hstep, ih]
        constructor
        · rintro ⟨kv2, hm, rest2⟩
          exact ⟨kv2, List.mem_cons_of_mem _ hm, rest2⟩
        · rintro ⟨kv2, hm, h1, b2, p2, ch2, cs2, h2, h3⟩
          rcases List.mem_cons.mp hm with heq | hmem
          · subst heq
            injection h2 with hb hp hch hcs
            subst hp
            subst hcs
            exact absurd h3 hcb
          · exact ⟨kv2, hmem, h1, b2, p2, ch2, cs2, h2, h3⟩
    | aliasEntry pa ch =>
      have hstep : filterEntriesAux R
          (fun _ item _ =>
            match item with
            | .icon _ props _ cats => q props cats
            | _ => false) ((key, .aliasEntry pa ch) :: rest) =
          filterEntriesAux R
            (fun _ item _ =>
              match item with
              | .icon _ props _ cats => q props cats
              | _ => false) rest := by
        simp only [filterEntriesAux]
        cases getIcon R (maxIteration + 1) key <;> simp
      rw [hstep, ih]
      constructor
      · rintro ⟨kv2, hm, rest2⟩
        exact ⟨kv2, List.mem_cons_of_mem _ hm, rest2⟩
      · rintro ⟨kv2, hm, h1, b2, p2, ch2, cs2, h2, h3⟩
        rcases List.mem_cons.mp hm with heq | hmem
        · subst heq
          exact IconSetIconEntry.noConfusion h2
        · exact ⟨kv2, hmem, h1, b2, p2, ch2, cs2, h2, h3⟩
    | variation pa pr ch =>
      have hstep : filterEntriesAux R
          (fun _ item _ =>
            match item with
            | .icon _ props _ cats => q props cats
            | _ => false) ((key, .variation pa pr ch) :: rest) =
          filterEntriesAux R
            (fun _ item _ =>
              match item with
              | .icon _ props _ cats => q props cats
              | _ => false) rest := by
        simp only [filterEntriesAux]
        cases getIcon R (maxIteration + 1) key <;> simp
      rw [hstep, ih]
      constructor
      · rintro ⟨kv2, hm, rest2⟩
        exact ⟨kv2, List.mem_cons_of_mem _ hm, rest2⟩
      · rintro ⟨kv2, hm, h1, b2, p2, ch2, cs2, h2, h3⟩
        rcases List.mem_cons.mp hm with heq | hmem
        · subst heq
          exact IconSetIconEntry.noConfusion h2
        · exact ⟨kv2, hmem, h1, b2, p2, ch2, cs2, h2, h3⟩

theorem mem_listCategoryIcons (E : List (String × IconSetIconEntry)) (cid : Nat)
    (x : String) :
    x ∈ listCategoryIcons E cid ↔
      ∃ kv ∈ E, kv.1 = x ∧ ∃ b p ch cs, kv.2 = IconSetIconEntry.icon b p ch cs ∧
        (!(p.hidden.getD false) && hasCatId cs cid) = true :=
  mem_filterEntriesAux E
    (fun props cats => !(props.hidden.getD false) && hasCatId cats cid) E x

theorem mem_titleMembers (E : List (String × IconSetIconEntry)) (t x : String) :
    x ∈ titleMembers E t ↔
      ∃ kv ∈ E, kv.1 = x ∧ ∃ b p ch cs, kv.2 = IconSetIconEntry.icon b p ch cs ∧
        (!(p.hidden.getD false) && cs.any (fun c => c.title = t)) = true :=
  mem_filterEntriesAux E
    (fun props cats => !(props.hidden.getD false) && cats.any (fun c => c.title = t)) E x

theorem subset_addCatRecord (cs : List IconCategory) (t : IconCategory) :
    cs ⊆ addCatRecord cs t := by
  unfold addCatRecord
  by_cases hm : hasCatId cs t.id = true
  · rw [if_pos hm]
    exact fun u hu => hu
  · rw [if_neg hm]
    exact List.subset_append_left cs [t]

theorem mem_addCatRecord (cs : List IconCategory) (t u : IconCategory)
    (h : u ∈ addCatRecord cs t) : u ∈ cs ∨ u = t := by
  unfold addCatRecord at h
  by_cases hm : hasCatId cs t.id = true
  · rw [if_pos hm] at h
    exact Or.inl h
  · rw [if_neg hm] at h
    rcases List.mem_append.mp h with h2 | h2
    · exact Or.inl h2
    · exact Or.inr (List.mem_singleton.mp h2)

theorem hasCatId_mono {cs cs2 : List IconCategory} (cid : Nat) (hsub : cs ⊆ cs2)
    (h : hasCatId cs cid = true) : hasCatId cs2 cid = true := by
  unfold hasCatId at h ⊢
  rw [List.any_eq_true] at h ⊢
  obtain ⟨c, hc, hp⟩ := h
  exact ⟨c, hsub hc, hp⟩

theorem entryExtendsBy_refl (t : IconCategory) (e : IconSetIconEntry) :
    entryExtendsBy t e e := by
  cases e with
  | icon b p ch cs =>
    exact ⟨rfl, rfl, rfl, fun u hu => hu, fun u hu => Or.inl hu⟩
  | aliasEntry pa ch => rfl
  | variation pa pr ch => rfl

theorem entryExtendsBy_trans (t : IconCategory) :
    ∀ {e1 e2 e3 : IconSetIconEntry},
      entryExtendsBy t e1 e2 → entryExtendsBy t e2 e3 → entryExtendsBy t e1 e3 := by
  intro e1 e2 e3 h12 h23
  cases e1 with
  | icon b1 p1 ch1 cs1 =>
    cases e2 with
    | icon b2 p2 ch2 cs2 =>
      cases e3 with
      | icon b3 p3 ch3 cs3 =>
        obtain ⟨hb, hp, hch, hsub, hbnd⟩ := h12
        obtain ⟨hb2, hp2, hch2, hsub2, hbnd2⟩ := h23
        exact ⟨hb.trans hb2, hp.trans hp2, hch.trans hch2,
          fun u hu => hsub2 (hsub hu),
          fun u hu => (hbnd2 u hu).elim (fun h2 => hbnd u h2) Or.inr⟩
      | aliasEntry pa ch => exact IconSetIconEntry.noConfusion h23
      | variation pa pr ch => exact IconSetIconEntry.noConfusion h23
    | aliasEntry pa ch => exact IconSetIconEntry.noConfusion h12
    | variation pa pr ch => exact IconSetIconEntry.noConfusion h12
  | aliasEntry pa1 ch1 =>
    cases e2 with
    | icon b2 p2 ch2 cs2 => exact IconSetIconEntry.noConfusion h12
    | aliasEntry pa2 ch2 =>
      cases e3 with
      | icon b3 p3 ch3 cs3 => exact IconSetIconEntry.noConfusion h23
      | aliasEntry pa3 ch3 => exact h12.trans h23
      | variation pa3 pr3 ch3 => exact IconSetIconEntry.noConfusion h23
    | variation pa2 pr2 ch2 => exact IconSetIconEntry.noConfusion h12
  | variation pa1 pr1 ch1 =>
    cases e2 with
    | icon b2 p2 ch2 cs2 => exact IconSetIconEntry.noConfusion h12
    | aliasEntry pa2 ch2 => exact IconSetIconEntry.noConfusion h12
    | variation pa2 pr2 ch2 =>
      cases e3 with
      | icon b3 p3 ch3 cs3 => exact IconSetIconEntry.noConfusion h23
      | aliasEntry pa3 ch3 => exact IconSetIconEntry.noConfusion h23
      | variation pa3 pr3 ch3 => exact h12.trans h23

theorem storeExtendsBy_refl (t : IconCategory) : ∀ E, storeExtendsBy t E E := by
  intro E
  induction E with
  | nil => exact List.Forall₂.nil
  | cons kv rest ih => exact List.Forall₂.cons ⟨rfl, entryExtendsBy_refl t kv.2⟩ ih

theorem storeExtendsBy_trans (t : IconCategory) :
    ∀ {E1 E2 E3 : List (String × IconSetIconEntry)},
      storeExtendsBy t E1 E2 → storeExtendsBy t E2 E3 → storeExtendsBy t E1 E3 := by
  intro E1 E2 E3 h12
  induction h12 generalizing E3 with
  | nil =>
    intro h23
    cases h23
    exact List.Forall₂.nil
  | cons hr _ ih =>
    intro h23
    cases h23 with
    | cons hr2 hrest2 =>
      exact List.Forall₂.cons ⟨hr.1.trans hr2.1, entryExtendsBy_trans t hr.2 hr2.2⟩
        (ih hrest2)

theorem setKey_extendsBy (t : IconCategory) :
    ∀ (es : List (String × IconSetIconEntry)) (k b : String) (p : IconProps)
      (ch : List String) (cs : List IconCategory),
      lookupKey es k = some (.icon b p ch cs) →
      storeExtendsBy t es (setKey es k (.icon b p ch (addCatRecord cs t))) := by
  intro es
  induction es with
  | nil =>
    intro k b p ch cs h
    exact absurd h (by simp [lookupKey])
  | cons kv rest ih =>
    intro k b p ch cs h
    obtain ⟨k0, v0⟩ := kv
    by_cases he : k0 = k
    · subst he
      have hv : v0 = .icon b p ch cs := by simpa [lookupKey] using h
      subst hv
      have hset : setKey ((k0, IconSetIconEntry.icon b p ch cs) :: rest) k0
          (.icon b p ch (addCatRecord cs t)) =
          (k0, .icon b p ch (addCatRecord cs t)) :: rest := by
        simp [setKey]
      rw [hset]
      refine List.Forall₂.cons ⟨rfl, ?_⟩ (storeExtendsBy_refl t rest)
      exact ⟨rfl, rfl, rfl, subset_addCatRecord cs t, fun u hu => mem_addCatRecord cs t u hu⟩
    · have hset : setKey ((k0, v0) :: rest) k (.icon b p ch (addCatRecord cs t)) =
          (k0, v0) :: setKey rest k (.icon b p ch (addCatRecord cs t)) := by
        simp [setKey, he]
      rw [hset]
      have hl : lookupKey rest k = some (.icon b p ch cs) := by
        simpa [lookupKey, he] using h
      exact List.Forall₂.cons ⟨rfl, entryExtendsBy_refl t v0⟩ (ih k b p ch cs hl)

theorem addCatStep_extendsBy (t : IconCategory) (es : List (String × IconSetIconEntry))
    (m : String) : storeExtendsBy t es (addCatStep t es m) := by
  unfold addCatStep
  cases hl : lookupKey es m with
  | none => exact storeExtendsBy_refl t es
  | some e =>
    cases e with
    | icon b p ch cs => exact setKey_extendsBy t es m b p ch cs hl
    | aliasEntry pa ch => exact storeExtendsBy_refl t es
    | variation pa pr ch => exact storeExtendsBy_refl t es

theorem addCategoryToIcons_extendsBy (t : IconCategory) :
    ∀ (members : List String) (es : List (String × IconSetIconEntry)),
      storeExtendsBy t es (addCategoryToIcons es t members) := by
  intro members
  induction members with
  | nil => intro es; exact storeExtendsBy_refl t es
  | cons m rest ih =>
    intro es
    exact storeExtendsBy_trans t (addCatStep_extendsBy t es m) (ih (addCatStep t es m))

theorem addCategoryToIcons_adds (t : IconCategory) :
    ∀ (members : List String) (es : List (String × IconSetIconEntry))
      (name b : String) (p : IconProps) (ch : List String) (cs : List IconCategory),
      lookupKey es name = some (.icon b p ch cs) →
      ∃ cs2, lookupKey (addCategoryToIcons es t members) name =
          some (.icon b p ch cs2) ∧
        cs ⊆ cs2 ∧ (name ∈ members → t ∈ cs2 ∨ ∃ c ∈ cs, c.id = t.id) ∧
        (t ∈ cs → t ∈ cs2) := by
  intro members
  induction members with
  | nil =>
    intro es name b p ch cs h
    exact ⟨cs, h, fun u hu => hu, fun hx => absurd hx (List.not_mem_nil name),
      fun hx => hx⟩
  | cons m rest ih =>
    intro es name b p ch cs h
    by_cases hm : m = name
    · subst hm
      have hstep : addCatStep t es m = setKey es m (.icon b p ch (addCatRecord cs t)) := by
        simp [addCatStep, h]
      have hlk : lookupKey (addCatStep t es m) m =
          some (.icon b p ch (addCatRecord cs t)) := by
        rw [hstep]
        exact lookupKey_setKey_self es m _
      obtain ⟨cs2, hlk2, hsub2, _, htin⟩ :=
        ih (addCatStep t es m) m b p ch (addCatRecord cs t) hlk
      refine ⟨cs2, hlk2, fun u hu => hsub2 (subset_addCatRecord cs t hu), ?_, ?_⟩
      · intro _
        by_cases hid : hasCatId cs t.id = true
        · right
          obtain ⟨c, hc, hp2⟩ := List.any_eq_true.mp hid
          exact ⟨c, hc, of_decide_eq_true hp2⟩
        · left
          refine htin ?_
          unfold addCatRecord
          rw [if_neg hid]
          exact List.mem_append.mpr (Or.inr (List.mem_singleton.mpr rfl))
      · intro hin
        exact htin (subset_addCatRecord cs t hin)
    · have hlk : lookupKey (addCatStep t es m) name = lookupKey es name := by
        unfold addCatStep
        cases hl : lookupKey es m with
        | none => rfl
        | some e =>
          cases e with
          | icon b2 p2 ch2 cs2 =>
            exact lookupKey_setKey_ne es m name _ (fun hh => hm hh.symm)
          | aliasEntry pa ch2 => rfl
          | variation pa pr ch2 => rfl
      obtain ⟨cs2, hlk2, hsub2, hmem2, htin2⟩ :=
        ih (addCatStep t es m) name b p ch cs (hlk.trans h)
      refine ⟨cs2, hlk2, hsub2, ?_, htin2⟩
      intro hmm
      rcases List.mem_cons.mp hmm with heq | hmm2
      · exact absurd heq.symm hm
      · exact hmem2 hmm2

theorem lookupKey_extendsBy_back (t : IconCategory) :
    ∀ {E1 E2 : List (String × IconSetIconEntry)}, storeExtendsBy t E1 E2 →
      ∀ (name b : String) (p : IconProps) (ch : List String) (cs2 : List IconCategory),
        lookupKey E2 name = some (.icon b p ch cs2) →
        ∃ cs1, lookupKey E1 name = some (.icon b p ch cs1) ∧ cs1 ⊆ cs2 ∧
          ∀ u ∈ cs2, u ∈ cs1 ∨ u = t := by
  intro E1 E2 h
  induction h with
  | nil =>
    intro name b p ch cs2 h2
    exact absurd h2 (by simp [lookupKey])
  | @cons a1 a2 l1 l2 hr _ ih =>
    intro name b p ch cs2 h2
    obtain ⟨k1, v1⟩ := a1
    obtain ⟨k2, v2⟩ := a2
    obtain ⟨hk, he⟩ := hr
    replace hk : k1 = k2 := hk
    by_cases hkn : k2 = name
    · subst hkn
      have hv2 : v2 = .icon b p ch cs2 := by simpa [lookupKey] using h2
      subst hv2
      cases v1 with
      | icon b1 p1 ch1 cs1 =>
        obtain ⟨hb, hp, hch, hsub, hbnd⟩ := he
        subst hb
        subst hp
        subst hch
        refine ⟨cs1, ?_, hsub, hbnd⟩
        simp [lookupKey, hk]
      | aliasEntry pa ch2 => exact IconSetIconEntry.noConfusion he
      | variation pa pr ch2 => exact IconSetIconEntry.noConfusion he
    · have h2r : lookupKey l2 name = some (.icon b p ch cs2) := by
        simpa [lookupKey, hkn] using h2
      obtain ⟨cs1, hl1, hsub, hbnd⟩ := ih name b p ch cs2 h2r
      have hk1 : ¬ (k1 = name) := by
        rw [hk]
        exact hkn
      refine ⟨cs1, ?_, hsub, hbnd⟩
      simp [lookupKey, hk1, hl1]

theorem listCategoryIcons_mono (tz : IconCategory) {E1 E2 : List (String × IconSetIconEntry)}
    (hx : storeExtendsBy tz E1 E2) (cid : Nat) (x : String)
    (h : x ∈ listCategoryIcons E1 cid) : x ∈ listCategoryIcons E2 cid := by
  rw [mem_listCategoryIcons] at h ⊢
  obtain ⟨kv, hm, h1, b, p, ch, cs, h2, h3⟩ := h
  obtain ⟨kv2, hm2, hk, he⟩ := forall2_mem_left hx kv hm
  rw [h2] at he
  cases hkv2 : kv2.2 with
  | icon b2 p2 ch2 cs2 =>
    rw [hkv2] at he
    obtain ⟨hb, hp, hch, hsub, _⟩ := he
    have h3x := h3
    simp only [Bool.and_eq_true] at h3x
    obtain ⟨hh, hc⟩ := h3x
    refine ⟨kv2, hm2, hk ▸ h1, b2, p2, ch2, cs2, hkv2, ?_⟩
    simp only [Bool.and_eq_true]
    refine ⟨?_, ?_⟩
    · rw [← hp]
      exact hh
    · exact hasCatId_mono cid hsub hc
  | aliasEntry pa ch2 =>
    rw [hkv2] at he
    exact IconSetIconEntry.noConfusion he
  | variation pa pr ch2 =>
    rw [hkv2] at he
    exact IconSetIconEntry.noConfusion he

theorem heldVisible_back (t : IconCategory) {E1 E2 : List (String × IconSetIconEntry)}
    (hx : storeExtendsBy t E1 E2) (c : IconCategory)
    (h : ∃ kv ∈ E2, ∃ b p ch cs, kv.2 = IconSetIconEntry.icon b p ch cs ∧
        (p.hidden.getD false) = false ∧ c ∈ cs) :
    c = t ∨ ∃ kv ∈ E1, ∃ b p ch cs, kv.2 = IconSetIconEntry.icon b p ch cs ∧
        (p.hidden.getD false) = false ∧ c ∈ cs := by
  obtain ⟨kv2, hm2, b, p, ch, cs2, h2, hvis, hc⟩ := h
  obtain ⟨kv1, hm1, hk, he⟩ := forall2_mem_right hx kv2 hm2
  rw [h2] at he
  cases hkv1 : kv1.2 with
  | icon b1 p1 ch1 cs1 =>
    rw [hkv1] at he
    obtain ⟨hb, hp, hch, hsub, hbnd⟩ := he
    rcases hbnd c hc with hin | heq
    · right
      refine ⟨kv1, hm1, b1, p1, ch1, cs1, hkv1, ?_, hin⟩
      rw [hp]
      exact hvis
    · exact Or.inl heq
  | aliasEntry pa ch2 =>
    rw [hkv1] at he
    exact IconSetIconEntry.noConfusion he
  | variation pa pr ch2 =>
    rw [hkv1] at he
    exact IconSetIconEntry.noConfusion he

theorem heldIdsBelow_mono (E : List (String × IconSetIconEntry)) (n m : Nat)
    (hnm : n ≤ m) (hb : heldIdsBelow E n) : heldIdsBelow E m :=
  fun kv hm b p ch cs h2 c hc => lt_of_lt_of_le (hb kv hm b p ch cs h2 c hc) hnm

theorem heldIdsBelow_extends (t : IconCategory) {E1 E2 : List (String × IconSetIconEntry)}
    (hx : storeExtendsBy t E1 E2) (n : Nat) (ht : t.id < n)
    (hb : heldIdsBelow E1 n) : heldIdsBelow E2 n := by
  intro kv2 hm2 b p ch cs h2 c hc
  obtain ⟨kv1, hm1, hk, he⟩ := forall2_mem_right hx kv2 hm2
  rw [h2] at he
  cases hkv1 : kv1.2 with
  | icon b1 p1 ch1 cs1 =>
    rw [hkv1] at he
    obtain ⟨hb1, hp1, hch1, hsub, hbnd⟩ := he
    rcases hbnd c hc with hin | heq
    · exact hb kv1 hm1 b1 p1 ch1 cs1 hkv1 c hin
    · rw [heq]
      exact ht
  | aliasEntry pa ch2 =>
    rw [hkv1] at he
    exact IconSetIconEntry.noConfusion he
  | variation pa pr ch2 =>
    rw [hkv1] at he
    exact IconSetIconEntry.noConfusion he

theorem noCats_heldIdsBelow (E : List (String × IconSetIconEntry)) (n : Nat)
    (h : entriesNoCats E) : heldIdsBelow E n := by
  intro kv hm b p ch cs he c hc
  rw [h kv hm b p ch cs he] at hc
  cases hc

theorem noCats_Q (s : IconSet) (h : entriesNoCats s.entries) :
    visibleHeldRegistered s := by
  intro kv hm b p ch cs he _ c hc
  rw [h kv hm b p ch cs he] at hc
  cases hc

theorem loadIcons_noCats (defaults : IconProps) (icons : List (String × IconData)) :
    entriesNoCats (loadIcons defaults icons) := by
  intro kv hm b p ch cs h
  unfold loadIcons at hm
  obtain ⟨kv0, hkv0, heq⟩ := List.mem_map.mp hm
  rw [← heq] at h
  injection h with _ _ _ hcs
  exact hcs.symm

theorem entriesNoCats_append (entries : List (String × IconSetIconEntry))
    (kv2 : String × IconSetIconEntry) (h : entriesNoCats entries)
    (hni : ∀ b p ch cs, kv2.2 = IconSetIconEntry.icon b p ch cs → cs = []) :
    entriesNoCats (entries ++ [kv2]) := by
  intro kv hm b p ch cs he
  rcases List.mem_append.mp hm with hl | hr
  · exact h kv hl b p ch cs he
  · rw [List.mem_singleton.mp hr] at he
    exact hni b p ch cs he

theorem loadAliases_noCats :
    ∀ (aliases : List (String × AliasData)) (entries : List (String × IconSetIconEntry)),
      entriesNoCats entries → entriesNoCats (loadAliases entries aliases) := by
  intro aliases
  induction aliases with
  | nil => intro entries h; exact h
  | cons kv rest ih =>
    intro entries h
    have hstep : loadAliases entries (kv :: rest) =
        loadAliases
          (if (lookupKey entries kv.1).isSome then entries
            else
              if hasProps (filterProps kv.2.props false) then
                entries ++ [(kv.1, .variation kv.2.parent (filterProps kv.2.props false) [])]
              else entries ++ [(kv.1, .aliasEntry kv.2.parent [])]) rest := rfl
    rw [hstep]
    apply ih
    by_cases h1 : (lookupKey entries kv.1).isSome = true
    · rw [if_pos h1]
      exact h
    · rw [if_neg h1]
      by_cases h2 : hasProps (filterProps kv.2.props false) = true
      · rw [if_pos h2]
        exact entriesNoCats_append entries _ h
          (fun b p ch cs he => IconSetIconEntry.noConfusion he)
      · rw [if_neg h2]
        exact entriesNoCats_append entries _ h
          (fun b p ch cs he => IconSetIconEntry.noConfusion he)

theorem addCharTo_noCats (entries : List (String × IconSetIconEntry)) (name ch : String)
    (h : entriesNoCats entries) : entriesNoCats (addCharTo entries name ch) := by
  intro kv hm b p ch2 cs he
  unfold addCharTo at hm
  obtain ⟨kv0, hm0, heq⟩ := List.mem_map.mp hm
  by_cases hk : kv0.1 = name
  · rw [if_pos hk] at heq
    rw [← heq] at he
    cases hv : kv0.2 with
    | icon b0 p0 ch0 cs0 =>
      rw [hv] at he
      injection he with _ _ _ hcs
      rw [← hcs]
      exact h kv0 hm0 b0 p0 ch0 cs0 hv
    | aliasEntry pa ch0 =>
      rw [hv] at he
      exact IconSetIconEntry.noConfusion he
    | variation pa pr ch0 =>
      rw [hv] at he
      exact IconSetIconEntry.noConfusion he
  · rw [if_neg hk] at heq
    rw [← heq] at he
    exact h kv0 hm0 b p ch2 cs he

theorem loadChars_noCats :
    ∀ (chars : List (String × String)) (entries : List (String × IconSetIconEntry)),
      entriesNoCats entries → entriesNoCats (loadChars entries chars) := by
  intro chars
  induction chars with
  | nil => intro entries h; exact h
  | cons kv rest ih =>
    intro entries h
    have hstep : loadChars entries (kv :: rest) =
        loadChars (if (lookupKey entries kv.2).isSome then addCharTo entries kv.2 kv.1
          else entries) rest := rfl
    rw [hstep]
    apply ih
    by_cases hl : (lookupKey entries kv.2).isSome = true
    · rw [if_pos hl]
      exact addCharTo_noCats entries kv.2 kv.1 h
    · rw [if_neg hl]
      exact h

theorem listCategoryRun_entries (s : IconSet) (c0 : IconCategory) :
    (listCategoryRun s c0).2.entries = s.entries := by
  unfold listCategoryRun
  by_cases hz : (listCategoryIcons s.entries c0.id).length = 0
  · simp [hz]
  · simp [hz]

theorem listCategoryRun_nextCatId (s : IconSet) (c0 : IconCategory) :
    (listCategoryRun s c0).2.nextCatId = s.nextCatId := by
  unfold listCategoryRun
  by_cases hz : (listCategoryIcons s.entries c0.id).length = 0
  · simp [hz]
  · simp [hz]

theorem listCategoryRun_categories (s : IconSet) (c0 : IconCategory) :
    (listCategoryIcons s.entries c0.id = [] ∧
      (listCategoryRun s c0).2.categories =
        s.categories.filter fun c => ¬ (c.id = c0.id)) ∨
    (listCategoryIcons s.entries c0.id ≠ [] ∧
      (listCategoryRun s c0).2.categories =
        s.categories.map fun c =>
          if c.id = c0.id then
            { c with count := ((listCategoryIcons s.entries c0.id).length : Int) }
          else c) := by
  by_cases hz : (listCategoryIcons s.entries c0.id).length = 0
  · left
    exact ⟨List.length_eq_zero.mp hz, by simp [listCategoryRun, hz]⟩
  · right
    refine ⟨fun hnil => hz (by rw [hnil]; rfl), by simp [listCategoryRun, hz]⟩

theorem catStep_entries (s : IconSet) (kv : String × List String) :
    (catStep s kv).entries =
      addCategoryToIcons s.entries (⟨s.nextCatId, kv.1, 0⟩ : IconCategory) kv.2 := by
  unfold catStep
  rw [listCategoryRun_entries]

theorem catStep_nextCatId (s : IconSet) (kv : String × List String) :
    (catStep s kv).nextCatId = s.nextCatId + 1 := by
  unfold catStep
  rw [listCategoryRun_nextCatId]

theorem catStep_lookup_back (s : IconSet) (kv : String × List String)
    (name b : String) (p : IconProps) (ch : List String) (cs2 : List IconCategory)
    (h : lookupKey (catStep s kv).entries name = some (.icon b p ch cs2)) :
    ∃ cs1, lookupKey s.entries name = some (.icon b p ch cs1) ∧ cs1 ⊆ cs2 := by
  rw [catStep_entries] at h
  obtain ⟨cs1, hl, hsub, _⟩ :=
    lookupKey_extendsBy_back (⟨s.nextCatId, kv.1, 0⟩ : IconCategory)
      (addCategoryToIcons_extendsBy (⟨s.nextCatId, kv.1, 0⟩ : IconCategory) kv.2 s.entries)
      name b p ch cs2 h
  exact ⟨cs1, hl, hsub⟩

theorem loadCategories_lookup_back :
    ∀ (cats : List (String × List String)) (s : IconSet) (name b : String)
      (p : IconProps) (ch : List String) (cs2 : List IconCategory),
      lookupKey (loadCategories s cats).entries name = some (.icon b p ch cs2) →
      ∃ cs1, lookupKey s.entries name = some (.icon b p ch cs1) ∧ cs1 ⊆ cs2 := by
  intro cats
  induction cats with
  | nil =>
    intro s name b p ch cs2 h
    exact ⟨cs2, h, fun u hu => hu⟩
  | cons kv rest ih =>
    intro s name b p ch cs2 h
    replace h : lookupKey (loadCategories (catStep s kv) rest).entries name =
        some (.icon b p ch cs2) := h
    obtain ⟨csm, hlm, hsubm⟩ := ih (catStep s kv) name b p ch cs2 h
    obtain ⟨cs1, hl1, hsub1⟩ := catStep_lookup_back s kv name b p ch csm hlm
    exact ⟨cs1, hl1, fun u hu => hsubm (hsub1 hu)⟩

theorem catStep_heldIdsBelow (s : IconSet) (kv : String × List String)
    (hb : heldIdsBelow s.entries s.nextCatId) :
    heldIdsBelow (catStep s kv).entries (catStep s kv).nextCatId := by
  rw [catStep_entries, catStep_nextCatId]
  exact heldIdsBelow_extends (⟨s.nextCatId, kv.1, 0⟩ : IconCategory)
    (addCategoryToIcons_extendsBy (⟨s.nextCatId, kv.1, 0⟩ : IconCategory) kv.2 s.entries)
    (s.nextCatId + 1) (Nat.lt_succ_self s.nextCatId)
    (heldIdsBelow_mono s.entries s.nextCatId (s.nextCatId + 1) (Nat.le_succ s.nextCatId) hb)

theorem loadCategories_adds :
    ∀ (cats : List (String × List String)) (s : IconSet),
      heldIdsBelow s.entries s.nextCatId →
      ∀ (name b : String) (p : IconProps) (ch : List String) (cs2 : List IconCategory),
      lookupKey (loadCategories s cats).entries name = some (.icon b p ch cs2) →
      ∀ (title : String) (members : List String), (title, members) ∈ cats →
        name ∈ members → ∃ c ∈ cs2, c.title = title := by
  intro cats
  induction cats with
  | nil =>
    intro s _ name b p ch cs2 _ title members hm
    cases hm
  | cons kv rest ih =>
    intro s hIb name b p ch cs2 h title members hmem hname
    replace h : lookupKey (loadCategories (catStep s kv) rest).entries name =
        some (.icon b p ch cs2) := h
    rcases List.mem_cons.mp hmem with heq | hmrest
    · obtain ⟨t0, mem0⟩ := kv
      injection heq with ht0 hmem0
      subst ht0
      subst hmem0
      obtain ⟨csm, hlm, hsubm⟩ :=
        loadCategories_lookup_back rest (catStep s (title, members)) name b p ch cs2 h
      rw [catStep_entries] at hlm
      obtain ⟨cs0, hl0, _, _⟩ :=
        lookupKey_extendsBy_back (⟨s.nextCatId, title, 0⟩ : IconCategory)
          (addCategoryToIcons_extendsBy (⟨s.nextCatId, title, 0⟩ : IconCategory) members
            s.entries)
          name b p ch csm hlm
      obtain ⟨csA, hlA, _, hmemA, _⟩ :=
        addCategoryToIcons_adds (⟨s.nextCatId, title, 0⟩ : IconCategory) members s.entries
          name b p ch cs0 hl0
      rw [hlA] at hlm
      injection hlm with hlm
      injection hlm with _ _ _ hcseq
      rcases hmemA hname with hin | hold
      · have hin2 : (⟨s.nextCatId, title, 0⟩ : IconCategory) ∈ csm := hcseq ▸ hin
        exact ⟨_, hsubm hin2, rfl⟩
      · exfalso
        obtain ⟨c0, hc0, hc0id⟩ := hold
        have hlt := hIb (name, .icon b p ch cs0)
          (mem_of_lookupKey s.entries name _ hl0) b p ch cs0 rfl c0 hc0
        rw [hc0id] at hlt
        exact Nat.lt_irrefl s.nextCatId hlt
    · exact ih (catStep s kv) (catStep_heldIdsBelow s kv hIb) name b p ch cs2 h
        title members hmrest hname

theorem catStep_categories (s : IconSet) (t : String) (members : List String) :
    (listCategoryIcons
        (addCategoryToIcons s.entries (⟨s.nextCatId, t, 0⟩ : IconCategory) members)
        s.nextCatId = [] ∧
      (catStep s (t, members)).categories =
        (s.categories ++ [(⟨s.nextCatId, t, 0⟩ : IconCategory)]).filter
          fun c => ¬ (c.id = s.nextCatId)) ∨
    (listCategoryIcons
        (addCategoryToIcons s.entries (⟨s.nextCatId, t, 0⟩ : IconCategory) members)
        s.nextCatId ≠ [] ∧
      (catStep s (t, members)).categories =
        (s.categories ++ [(⟨s.nextCatId, t, 0⟩ : IconCategory)]).map fun c =>
          if c.id = s.nextCatId then
            { c with count :=
                ((listCategoryIcons
                  (addCategoryToIcons s.entries (⟨s.nextCatId, t, 0⟩ : IconCategory) members)
                  s.nextCatId).length : Int) }
          else c) :=
  listCategoryRun_categories
    { s with entries := addCategoryToIcons s.entries (⟨s.nextCatId, t, 0⟩ : IconCategory) members,
             categories := s.categories ++ [(⟨s.nextCatId, t, 0⟩ : IconCategory)],
             nextCatId := s.nextCatId + 1 }
    (⟨s.nextCatId, t, 0⟩ : IconCategory)

theorem catStep_inv (s : IconSet) (kv : String × List String)
    (hI : ∀ cat ∈ s.categories, listCategoryIcons s.entries cat.id ≠ []) :
    ∀ cat ∈ (catStep s kv).categories,
      listCategoryIcons (catStep s kv).entries cat.id ≠ [] := by
  obtain ⟨t, members⟩ := kv
  intro cat hcat
  have hext :=
    addCategoryToIcons_extendsBy (⟨s.nextCatId, t, 0⟩ : IconCategory) members s.entries
  rw [catStep_entries]
  rcases catStep_categories s t members with ⟨hnil, hcats⟩ | ⟨hnn, hcats⟩
  · rw [hcats] at hcat
    obtain ⟨hmem, hpred⟩ := List.mem_filter.mp hcat
    have hne : ¬ (cat.id = s.nextCatId) := by simpa using hpred
    rcases List.mem_append.mp hmem with hl | hr
    · obtain ⟨x, hx⟩ := exists_mem_of_ne_nil _ (hI cat hl)
      exact List.ne_nil_of_mem (listCategoryIcons_mono _ hext cat.id x hx)
    · exfalso
      apply hne
      rw [List.mem_singleton.mp hr]
  · rw [hcats] at hcat
    obtain ⟨c1, hc1, hceq⟩ := List.mem_map.mp hcat
    have hcid : cat.id = c1.id := by
      by_cases ht2 : c1.id = s.nextCatId
      · rw [← hceq, if_pos ht2]
      · rw [← hceq, if_neg ht2]
    by_cases hc1id : c1.id = s.nextCatId
    · rw [hcid, hc1id]
      exact hnn
    · rcases List.mem_append.mp hc1 with hl | hr
      · obtain ⟨x, hx⟩ := exists_mem_of_ne_nil _ (hI c1 hl)
        rw [hcid]
        exact List.ne_nil_of_mem (listCategoryIcons_mono _ hext c1.id x hx)
      · exfalso
        apply hc1id
        rw [List.mem_singleton.mp hr]

theorem loadCategories_inv :
    ∀ (cats : List (String × List String)) (s : IconSet),
      (∀ cat ∈ s.categories, listCategoryIcons s.entries cat.id ≠ []) →
      ∀ cat ∈ (loadCategories s cats).categories,
        listCategoryIcons (loadCategories s cats).entries cat.id ≠ [] := by
  intro cats
  induction cats with
  | nil => intro s h; exact h
  | cons kv rest ih => intro s h; exact ih (catStep s kv) (catStep_inv s kv h)

theorem catStep_Q (s : IconSet) (kv : String × List String)
    (hQ : visibleHeldRegistered s) : visibleHeldRegistered (catStep s kv) := by
  obtain ⟨t, members⟩ := kv
  intro kv2 hm2 b p ch cs h2 hvis c hc
  rw [catStep_entries] at hm2
  have hext :=
    addCategoryToIcons_extendsBy (⟨s.nextCatId, t, 0⟩ : IconCategory) members s.entries
  have hwit : hasCatId cs c.id = true := by
    unfold hasCatId
    rw [List.any_eq_true]
    exact ⟨c, hc, by simp⟩
  have hmemE2 : c.id = s.nextCatId →
      kv2.1 ∈ listCategoryIcons
        (addCategoryToIcons s.entries (⟨s.nextCatId, t, 0⟩ : IconCategory) members)
        s.nextCatId := by
    intro hcid
    rw [mem_listCategoryIcons]
    refine ⟨kv2, hm2, rfl, b, p, ch, cs, h2, ?_⟩
    simp only [Bool.and_eq_true]
    refine ⟨?_, ?_⟩
    · rw [hvis]
      rfl
    · rw [← hcid]
      exact hwit
  have hback := heldVisible_back (⟨s.nextCatId, t, 0⟩ : IconCategory) hext c
    ⟨kv2, hm2, b, p, ch, cs, h2, hvis, hc⟩
  rcases catStep_categories s t members with ⟨hnil, hcats⟩ | ⟨hnn, hcats⟩
  · rcases hback with hceq | ⟨kv1, hm1, b1, p1, ch1, cs1, hkv1, hvis1, hc1⟩
    · exfalso
      have hmm := hmemE2 (by rw [hceq])
      rw [hnil] at hmm
      exact List.not_mem_nil _ hmm
    · obtain ⟨c2, hc2, hid, htl⟩ := hQ kv1 hm1 b1 p1 ch1 cs1 hkv1 hvis1 c hc1
      have hneq : ¬ (c2.id = s.nextCatId) := by
        intro heq
        have hcid : c.id = s.nextCatId := by
          rw [← hid]
          exact heq
        have hmm := hmemE2 hcid
        rw [hnil] at hmm
        exact List.not_mem_nil _ hmm
      rw [hcats]
      exact ⟨c2, List.mem_filter.mpr ⟨List.mem_append.mpr (Or.inl hc2),
        decide_eq_true hneq⟩, hid, htl⟩
  · rcases hback with hceq | ⟨kv1, hm1, b1, p1, ch1, cs1, hkv1, hvis1, hc1⟩
    · rw [hcats]
      refine ⟨(⟨s.nextCatId, t,
          ((listCategoryIcons
            (addCategoryToIcons s.entries (⟨s.nextCatId, t, 0⟩ : IconCategory) members)
            s.nextCatId).length : Int)⟩ : IconCategory),
        List.mem_map.mpr ⟨(⟨s.nextCatId, t, 0⟩ : IconCategory),
          List.mem_append.mpr (Or.inr (List.mem_singleton.mpr rfl)), by simp⟩, ?_, ?_⟩
      · rw [hceq]
      · rw [hceq]
    · obtain ⟨c2, hc2, hid, htl⟩ := hQ kv1 hm1 b1 p1 ch1 cs1 hkv1 hvis1 c hc1
      rw [hcats]
      by_cases hcc : c2.id = s.nextCatId
      · exact ⟨{ c2 with count :=
            ((listCategoryIcons
              (addCategoryToIcons s.entries (⟨s.nextCatId, t, 0⟩ : IconCategory) members)
              s.nextCatId).length : Int) },
          List.mem_map.mpr ⟨c2, List.mem_append.mpr (Or.inl hc2), by simp [hcc]⟩, hid, htl⟩
      · exact ⟨c2,
          List.mem_map.mpr ⟨c2, List.mem_append.mpr (Or.inl hc2), by simp [hcc]⟩, hid, htl⟩

theorem loadCategories_Q :
    ∀ (cats : List (String × List String)) (s : IconSet),
      visibleHeldRegistered s → visibleHeldRegistered (loadCategories s cats) := by
  intro cats
  induction cats with
  | nil => intro s h; exact h
  | cons kv rest ih => intro s h; exact ih (catStep s kv) (catStep_Q s kv h)

theorem titleMembers_registered (s : IconSet) (hQ : visibleHeldRegistered s)
    (t : String) (hne : titleMembers s.entries t ≠ []) :
    ∃ cat ∈ s.categories, cat.title = t := by
  obtain ⟨x, hx⟩ := exists_mem_of_ne_nil _ hne
  rw [mem_titleMembers] at hx
  obtain ⟨kv, hm, hk, b, p, ch, cs, h2, h3⟩ := hx
  simp only [Bool.and_eq_true] at h3
  obtain ⟨hh, hany⟩ := h3
  rw [List.any_eq_true] at hany
  obtain ⟨c, hc, hct⟩ := hany
  have hvis : (p.hidden.getD false) = false := by
    cases hhv : p.hidden.getD false
    · rfl
    · rw [hhv] at hh
      exact Bool.noConfusion hh
  obtain ⟨c2, hc2, hid, htl⟩ := hQ kv hm b p ch cs h2 hvis c hc
  refine ⟨c2, hc2, ?_⟩
  rw [htl]
  exact of_decide_eq_true hct

/-- C7 (amended): `load` creates a `Category{title, count: 0}` record for
each declared category and adds it to the category set of every listed
name stored as an `Icon` entry, but registration is immediately followed
by a `listCategory` recount that deletes the record from the index again
when it has no visible member — so after `load` every record in the
Category Index has at least one visible member icon holding it, a
declared category whose member list resolves to no `Icon` entry is
absent, and every title a visible icon still refers to is present. -/
theorem c7_load_categories :
    (∀ (data : IconifyJSONData) (name title b : String) (p : IconProps)
        (ch : List String) (cs : List IconCategory),
      lookupKey (load data).entries name = some (.icon b p ch cs) →
      ∀ members, (title, members) ∈ data.categories → name ∈ members →
        ∃ c ∈ cs, c.title = title) ∧
    (∀ data : IconifyJSONData, ∀ cat ∈ (load data).categories,
      listCategoryIcons (load data).entries cat.id ≠ []) ∧
    (∀ (data : IconifyJSONData) (title : String),
      titleMembers (load data).entries title ≠ [] →
      ∃ cat ∈ (load data).categories, cat.title = title) := by
  refine ⟨?_, ?_, ?_⟩
  · intro data name title b p ch cs h members hmem hname
    refine loadCategories_adds data.categories
      { pfx := data.pfx,
        entries := loadChars (loadAliases (loadIcons (filterDims data.docProps) data.icons)
          data.aliases) data.chars,
        categories := [], prefixes := [], suffixes := [], nextCatId := 0 }
      ?_ name b p ch cs h title members hmem hname
    exact noCats_heldIdsBelow _ 0
      (loadChars_noCats data.chars _
        (loadAliases_noCats data.aliases _
          (loadIcons_noCats (filterDims data.docProps) data.icons)))
  · intro data cat hcat
    exact loadCategories_inv data.categories
      { pfx := data.pfx,
        entries := loadChars (loadAliases (loadIcons (filterDims data.docProps) data.icons)
          data.aliases) data.chars,
        categories := [], prefixes := [], suffixes := [], nextCatId := 0 }
      (fun cat2 h2 => absurd h2 (List.not_mem_nil cat2)) cat hcat
  · intro data title hne
    exact titleMembers_registered
      (loadCategories
        { pfx := data.pfx,
          entries := loadChars (loadAliases (loadIcons (filterDims data.docProps) data.icons)
            data.aliases) data.chars,
          categories := [], prefixes := [], suffixes := [], nextCatId := 0 }
        data.categories)
      (loadCategories_Q data.categories _
        (noCats_Q _
          (loadChars_noCats data.chars _
            (loadAliases_noCats data.aliases _
              (loadIcons_noCats (filterDims data.docProps) data.icons)))))
      title hne

/-- Witness: the listed icon `a` of `C7doc` carries the record of its
declared category after `load`. -/
theorem c7_load_categories_witness :
    lookupKey (load C7doc).entries "a" =
      some (.icon "x" noProps [] [⟨1, "Good", 0⟩]) ∧
    ∃ c ∈ ([⟨1, "Good", 0⟩] : List IconCategory), c.title = "Good" :=
  ⟨by decide,
    c7_load_categories.1 C7doc "a" "Good" "x" noProps [] [⟨1, "Good", 0⟩] (by decide)
      ["a"] (by decide) (by decide)⟩

/-- C7 (counterexample): `C7doc` declares the category `Empty` whose
member list resolves to no `Icon` entry; immediately after `load` the
Category Index contains only `Good` — `Empty` was registered and then
pruned by the `listCategory` recount, contradicting "still present". -/
theorem c7_counterexample :
    ("Empty", ["zzz"]) ∈ C7doc.categories ∧
    (load C7doc).categories = [⟨1, "Good", 1⟩] ∧
    ((load C7doc).categories.find? fun c => c.title = "Empty") = none := by
  exact ⟨by decide, by decide, by decide⟩

end IconSetVerif
